import Mathlib

/-!
Verification development for the `git_ops` inmanta module: a shallow
embedding, in Lean, of the versioned slice store and of the schema-driven
attribute merge engine found in `inmanta_plugins/git_ops/store.py`, together
with the data model of `inmanta_plugins/git_ops/slice.py` and the plugin
surface of `inmanta_plugins/git_ops/__init__.py`.

Python values read from slice files are JSON-like trees; we embed them as the
inductive `Value`.  Python dicts are embedded as ordered association lists
(Python dicts are insertion ordered); numbers are embedded as integers
(floating point content is out of scope).  Fallible Python code (KeyError,
AttributeError, TypeError, AssertionError, ValueError, IndexError, ...) is
embedded with `Except`.  External collaborators (the pydantic validator, the
JSON/YAML codecs, the `inmanta.util.dict_path` library, the compile-mode
enum) are embedded at their interface, as the specification directs.
-/

namespace GitOps

/-- JSON-like tree of values, as produced by reading a slice file
(`SliceFile.read` in `store.py`).  `null` embeds Python `None`; `obj` embeds
a Python dict as an insertion-ordered association list. -/
inductive Value where
  | null : Value
  | bool (b : Bool) : Value
  | int (n : Int) : Value
  | str (s : String) : Value
  | list (items : List Value) : Value
  | obj (fields : List (String × Value)) : Value

mutual
/-- Structural (deep) equality test on values, matching Python `==` on the
corresponding trees. -/
def Value.beq : Value → Value → Bool
  | .null, .null => true
  | .bool a, .bool b => a == b
  | .int a, .int b => a == b
  | .str a, .str b => a == b
  | .list xs, .list ys => Value.beqList xs ys
  | .obj xs, .obj ys => Value.beqFields xs ys
  | _, _ => false
def Value.beqList : List Value → List Value → Bool
  | [], [] => true
  | x :: xs, y :: ys => Value.beq x y && Value.beqList xs ys
  | _, _ => false
def Value.beqFields : List (String × Value) → List (String × Value) → Bool
  | [], [] => true
  | (k, v) :: xs, (k', v') :: ys => k == k' && Value.beq v v' && Value.beqFields xs ys
  | _, _ => false
end

mutual
theorem Value.beq_iff : ∀ a b : Value, Value.beq a b = true ↔ a = b
  | .null, b => by cases b <;> simp [Value.beq]
  | .bool a, b => by cases b <;> simp [Value.beq]
  | .int a, b => by cases b <;> simp [Value.beq]
  | .str a, b => by cases b <;> simp [Value.beq]
  | .list xs, b => by
      cases b <;> simp [Value.beq]
      exact Value.beqList_iff xs _
  | .obj xs, b => by
      cases b <;> simp [Value.beq]
      exact Value.beqFields_iff xs _
theorem Value.beqList_iff : ∀ xs ys : List Value, Value.beqList xs ys = true ↔ xs = ys
  | [], ys => by cases ys <;> simp [Value.beqList]
  | x :: xs, ys => by
      cases ys with
      | nil => simp [Value.beqList]
      | cons y ys =>
          simp [Value.beqList, Bool.and_eq_true, Value.beq_iff x y, Value.beqList_iff xs ys]
theorem Value.beqFields_iff : ∀ xs ys : List (String × Value), Value.beqFields xs ys = true ↔ xs = ys
  | [], ys => by cases ys <;> simp [Value.beqFields]
  | (k, v) :: xs, ys => by
      cases ys with
      | nil => simp [Value.beqFields]
      | cons y ys =>
          obtain ⟨k', v'⟩ := y
          simp [Value.beqFields, Bool.and_eq_true, Value.beq_iff v v',
            Value.beqFields_iff xs ys, and_assoc]
end

instance : DecidableEq Value := fun a b =>
  decidable_of_iff (Value.beq a b = true) (Value.beq_iff a b)

instance {ε α : Type} [DecidableEq ε] [DecidableEq α] : DecidableEq (Except ε α) := fun a b =>
  match a, b with
  | .ok x, .ok y =>
      if h : x = y then isTrue (by rw [h]) else isFalse (fun hc => h (by cases hc; rfl))
  | .error x, .error y =>
      if h : x = y then isTrue (by rw [h]) else isFalse (fun hc => h (by cases hc; rfl))
  | .ok _, .error _ => isFalse (fun hc => Except.noConfusion hc)
  | .error _, .ok _ => isFalse (fun hc => Except.noConfusion hc)

/-- Look a key up in an association list embedding a Python dict
(first binding wins; a well-formed dict binds each key once). -/
def dictGet {κ α : Type} [DecidableEq κ] : List (κ × α) → κ → Option α
  | [], _ => none
  | (k', v) :: rest, k => if k' = k then some v else dictGet rest k

/-- Assignment `d[k] = v` on an association list embedding a Python dict: an
existing binding keeps its position and gets the new value, a new key is
appended at the end (Python dicts are insertion ordered). -/
def dictSet {κ α : Type} [DecidableEq κ] : List (κ × α) → κ → α → List (κ × α)
  | [], k, v => [(k, v)]
  | (k', v') :: rest, k, v =>
      if k' = k then (k, v) :: rest else (k', v') :: dictSet rest k v

/-- Python `d.update(entries)`: assign every entry in order. -/
def dictUpdate {κ α : Type} [DecidableEq κ] (d : List (κ × α)) (entries : List (κ × α)) :
    List (κ × α) :=
  entries.foldl (fun acc e => dictSet acc e.1 e.2) d

mutual
/-- Python `repr` of an embedded value, used (through `pyStr`) to stringify
the key attributes of collection members in `merge_attributes`. -/
def pyRepr : Value → String
  | .null => "None"
  | .bool true => "True"
  | .bool false => "False"
  | .int n => toString n
  | .str s => "\x27" ++ s ++ "\x27"
  | .list xs => "[" ++ pyReprList xs ++ "]"
  | .obj fs => "\x7b" ++ pyReprFields fs ++ "\x7d"
def pyReprList : List Value → String
  | [] => ""
  | [x] => pyRepr x
  | x :: y :: rest => pyRepr x ++ ", " ++ pyReprList (y :: rest)
def pyReprFields : List (String × Value) → String
  | [] => ""
  | [(k, v)] => "\x27" ++ k ++ "\x27: " ++ pyRepr v
  | (k, v) :: y :: rest => "\x27" ++ k ++ "\x27: " ++ pyRepr v ++ ", " ++ pyReprFields (y :: rest)
end

/-- Python `str` of an embedded value: identity on strings, `repr` on the
remaining JSON-like values. -/
def pyStr : Value → String
  | .str s => s
  | v => pyRepr v

/-- Key tuple identifying one member of a keyed collection: the list of
(key attribute name, stringified key attribute value) pairs, embedding the
Python tuple `tuple((k, str(value[k])) for k in keys)`. -/
abbrev KeyTuple := List (String × String)

/-- Structural locator accumulated by the merge engine, embedding the
`inmanta.util.dict_path` paths the source builds: the null path, `InDict`
steps and `KeyedList` steps.  The library itself is an external collaborator;
only the constructors used by `store.py` are embedded. -/
inductive DictPath where
  | nullPath : DictPath
  | inDict (parent : DictPath) (key : String) : DictPath
  | keyedList (parent : DictPath) (relationName : String) (key : KeyTuple) : DictPath
deriving DecidableEq

/-- Rendering of one keyed-list selector, `relation[k1=v1][k2=v2]...`. -/
def renderKeySelector (key : KeyTuple) : String :=
  String.join (key.map (fun kv => "[" ++ kv.1 ++ "=" ++ kv.2 ++ "]"))

/-- String rendering of a structural locator (modelled from the external
`inmanta.util.dict_path` library: the null path renders as a dot, nested
steps are dot separated). -/
def DictPath.render : DictPath → String
  | .nullPath => "."
  | .inDict .nullPath k => k
  | .inDict p k => p.render ++ "." ++ k
  | .keyedList .nullPath r key => r ++ renderKeySelector key
  | .keyedList p r key => p.render ++ "." ++ r ++ renderKeySelector key

/-- Errors the merge engine can raise: KeyError (`d[k]` on a missing key),
AttributeError (`.get` on a non-dict), TypeError (indexing or iterating a
value of the wrong shape), AssertionError (the `assert` on re-used deleted
sub-trees) and ValueError (the impossible current/previous combinations). -/
inductive MergeError where
  | keyError (k : String) : MergeError
  | attributeError : MergeError
  | typeError : MergeError
  | assertionError : MergeError
  | valueError : MergeError
deriving DecidableEq

/-- Python `d.get(k)` on an embedded value: AttributeError when the value is
not a dict, otherwise the bound value or `None` for a missing key.  The
result is collapsed to an `Option` in which `none` stands for Python `None`
(a stored `None` and a missing key are indistinguishable to `.get`). -/
def Value.pyGetOpt : Value → String → Except MergeError (Option Value)
  | .obj fields, k =>
      .ok (match dictGet fields k with
        | none => none
        | some Value.null => none
        | some v => some v)
  | _, _ => .error .attributeError

/-- Python `d.get(k)` keeping the raw stored value (`None` for a missing
key), as used by the attribute-copying loop of `merge_attributes`. -/
def Value.pyGet : Value → String → Except MergeError Value
  | .obj fields, k => .ok ((dictGet fields k).getD Value.null)
  | _, _ => .error .attributeError

/-- Python `d[k]` on an embedded value: TypeError when the value is not a
dict, KeyError when the key is missing. -/
def Value.getItem : Value → String → Except MergeError Value
  | .obj fields, k =>
      match dictGet fields k with
      | some v => .ok v
      | none => .error (.keyError k)
  | _, _ => .error .typeError

/-- Python list coercion: TypeError when the embedded value is not a list
(the source casts and iterates collection relations as `list[dict]`). -/
def Value.asList : Value → Except MergeError (List Value)
  | .list xs => .ok xs
  | _ => .error .typeError

/-- Collapse Python `None` to `Option.none`: a sub-tree value of `None` is
treated as an absent sub-tree wherever the source tests `is not None`. -/
def denull : Value → Option Value
  | .null => none
  | v => some v

/-- Collapse an optional lookup result the same way `dict.get` does: an
absent entry and a stored `None` both read back as Python `None`. -/
def denullOpt : Option Value → Option Value
  | none => none
  | some v => denull v

/-- Schema of one scalar attribute of a slice entity
(`SliceEntityAttributeSchema` in `slice.py`).  Only the attribute name is
consulted by the merge engine; the description and the inmanta type tag of
the source are never read by any embedded operation and are omitted. -/
structure SliceEntityAttributeSchema where
  name : String
deriving DecidableEq

mutual
/-- Schema of a slice entity (`SliceEntitySchema` in `slice.py`): its name,
its declared key attribute names, its module path, the schemas of its base
entities, its own scalar attributes and its own embedded relations. -/
inductive SliceEntitySchema : Type where
  | mk (name : String) (keys : List String) (path : List String)
       (baseEntities : List SliceEntitySchema)
       (attributes : List SliceEntityAttributeSchema)
       (embeddedEntities : List SliceEntityRelationSchema) : SliceEntitySchema
/-- Schema of a relation from a slice entity to an embedded slice entity
(`SliceEntityRelationSchema` in `slice.py`): relation name, embedded entity
schema and cardinality bounds. -/
inductive SliceEntityRelationSchema : Type where
  | mk (name : String) (entity : SliceEntitySchema)
       (cardinalityMin : Nat) (cardinalityMax : Option Nat) : SliceEntityRelationSchema
end

def SliceEntitySchema.name : SliceEntitySchema → String
  | .mk n _ _ _ _ _ => n

def SliceEntitySchema.keys : SliceEntitySchema → List String
  | .mk _ ks _ _ _ _ => ks

def SliceEntitySchema.baseEntities : SliceEntitySchema → List SliceEntitySchema
  | .mk _ _ _ bs _ _ => bs

def SliceEntitySchema.attributes : SliceEntitySchema → List SliceEntityAttributeSchema
  | .mk _ _ _ _ attrs _ => attrs

def SliceEntitySchema.embeddedEntities : SliceEntitySchema → List SliceEntityRelationSchema
  | .mk _ _ _ _ _ rels => rels

def SliceEntityRelationSchema.name : SliceEntityRelationSchema → String
  | .mk n _ _ _ => n

def SliceEntityRelationSchema.entity : SliceEntityRelationSchema → SliceEntitySchema
  | .mk _ e _ _ => e

def SliceEntityRelationSchema.cardinalityMin : SliceEntityRelationSchema → Nat
  | .mk _ _ lo _ => lo

def SliceEntityRelationSchema.cardinalityMax : SliceEntityRelationSchema → Option Nat
  | .mk _ _ _ hi => hi

mutual
/-- Size measure on entity schemas, used to justify the termination of the
inheritance flattening and of the merge engine. -/
def schemaSize : SliceEntitySchema → Nat
  | .mk _ _ _ bases _ rels => 1 + schemaListSize bases + relListSize rels
def schemaListSize : List SliceEntitySchema → Nat
  | [] => 0
  | s :: ss => schemaSize s + schemaListSize ss
def relSize : SliceEntityRelationSchema → Nat
  | .mk _ e _ _ => 1 + schemaSize e
def relListSize : List SliceEntityRelationSchema → Nat
  | [] => 0
  | r :: rs => relSize r + relListSize rs
end

theorem schemaListSize_append (a b : List SliceEntitySchema) :
    schemaListSize (a ++ b) = schemaListSize a + schemaListSize b := by
  induction a with
  | nil => simp [schemaListSize]
  | cons s ss ih => simp [schemaListSize, ih, Nat.add_assoc]

theorem schemaListSize_reverse (l : List SliceEntitySchema) :
    schemaListSize l.reverse = schemaListSize l := by
  induction l with
  | nil => rfl
  | cons s ss ih =>
      simp [List.reverse_cons, schemaListSize_append, schemaListSize, ih]
      omega

theorem schemaSize_le_of_mem {s : SliceEntitySchema} {l : List SliceEntitySchema}
    (h : s ∈ l) : schemaSize s ≤ schemaListSize l := by
  induction l with
  | nil => cases h
  | cons x xs ih =>
      rcases List.mem_cons.mp h with rfl | h'
      · simp only [schemaListSize]; omega
      · have := ih h'
        simp only [schemaListSize]; omega

theorem relSize_le_of_mem {r : SliceEntityRelationSchema} {l : List SliceEntityRelationSchema}
    (h : r ∈ l) : relSize r ≤ relListSize l := by
  induction l with
  | nil => cases h
  | cons x xs ih =>
      rcases List.mem_cons.mp h with rfl | h'
      · simp only [relListSize]; omega
      · have := ih h'
        simp only [relListSize]; omega

theorem schemaSize_pos (s : SliceEntitySchema) : 1 ≤ schemaSize s := by
  cases s with
  | mk n ks p bases attrs rels => simp [schemaSize]; omega

mutual
/-- Flattened attribute list of an entity schema
(`SliceEntitySchema.all_attributes` in `slice.py`): build an ordered dict
keyed by attribute name, updating it with each base entity's flattened
attributes (bases in reverse order, so that earlier bases win position and
later definitions win value) and finally with the entity's own attributes;
return the dict's values. -/
def SliceEntitySchema.allAttributes (s : SliceEntitySchema) : List SliceEntityAttributeSchema :=
  match s with
  | .mk _ _ _ bases attrs _ =>
      (dictUpdate (allAttributesOfBases [] bases.reverse)
        (attrs.map fun a => (a.name, a))).map Prod.snd
termination_by (schemaSize s, 0)
decreasing_by
  apply Prod.Lex.left
  simp [schemaSize, schemaListSize_reverse]
  omega
/-- The base-entity fold of `all_attributes`: update the accumulated ordered
dict with each base entity's flattened attributes in turn. -/
def allAttributesOfBases (acc : List (String × SliceEntityAttributeSchema))
    (l : List SliceEntitySchema) : List (String × SliceEntityAttributeSchema) :=
  match l with
  | [] => acc
  | b :: bs =>
      allAttributesOfBases
        (dictUpdate acc ((SliceEntitySchema.allAttributes b).map fun a => (a.name, a))) bs
termination_by (schemaListSize l, l.length)
decreasing_by
  · have hle : schemaSize s ≤ schemaListSize (s :: ss) := schemaSize_le_of_mem (by simp)
    rcases Nat.lt_or_ge (schemaSize s) (schemaListSize (s :: ss)) with h | h
    · exact Prod.Lex.left _ _ h
    · have heq : schemaSize s = schemaListSize (s :: ss) := Nat.le_antisymm hle h
      rw [heq]
      exact Prod.Lex.right _ (by simp)
  · apply Prod.Lex.left
    have := schemaSize_pos s
    simp only [schemaListSize]
    omega
end

mutual
/-- Flattened relation list of an entity schema
(`SliceEntitySchema.all_relations` in `slice.py`): same ordered-dict
construction as `all_attributes`, over the embedded relations. -/
def SliceEntitySchema.allRelations (s : SliceEntitySchema) : List SliceEntityRelationSchema :=
  match s with
  | .mk _ _ _ bases _ rels =>
      (dictUpdate (allRelationsOfBases [] bases.reverse)
        (rels.map fun r => (r.name, r))).map Prod.snd
termination_by (schemaSize s, 0)
decreasing_by
  apply Prod.Lex.left
  simp [schemaSize, schemaListSize_reverse]
  omega
/-- The base-entity fold of `all_relations`. -/
def allRelationsOfBases (acc : List (String × SliceEntityRelationSchema))
    (l : List SliceEntitySchema) : List (String × SliceEntityRelationSchema) :=
  match l with
  | [] => acc
  | b :: bs =>
      allRelationsOfBases
        (dictUpdate acc ((SliceEntitySchema.allRelations b).map fun r => (r.name, r))) bs
termination_by (schemaListSize l, l.length)
decreasing_by
  · have hle : schemaSize s ≤ schemaListSize (s :: ss) := schemaSize_le_of_mem (by simp)
    rcases Nat.lt_or_ge (schemaSize s) (schemaListSize (s :: ss)) with h | h
    · exact Prod.Lex.left _ _ h
    · have heq : schemaSize s = schemaListSize (s :: ss) := Nat.le_antisymm hle h
      rw [heq]
      exact Prod.Lex.right _ (by simp)
  · apply Prod.Lex.left
    have := schemaSize_pos s
    simp only [schemaListSize]
    omega
end

theorem mem_dictSet {κ α : Type} [DecidableEq κ] {d : List (κ × α)} {k : κ} {v : α}
    {x : κ × α} (h : x ∈ dictSet d k v) : x ∈ d ∨ x = (k, v) := by
  induction d with
  | nil => simpa [dictSet] using h
  | cons e rest ih =>
      obtain ⟨k', v'⟩ := e
      by_cases hk : k' = k
      · simp [dictSet, hk] at h
        rcases h with rfl | h'
        · right; rfl
        · left; simp [h']
      · simp [dictSet, hk] at h
        rcases h with rfl | h'
        · left; simp
        · rcases ih h' with hd | he
          · left; simp [hd]
          · right; exact he

theorem mem_dictUpdate {κ α : Type} [DecidableEq κ] {d es : List (κ × α)}
    {x : κ × α} (h : x ∈ dictUpdate d es) : x ∈ d ∨ x ∈ es := by
  induction es generalizing d with
  | nil => left; simpa [dictUpdate] using h
  | cons e rest ih =>
      have h' : x ∈ dictUpdate (dictSet d e.1 e.2) rest := by
        simpa [dictUpdate] using h
      rcases ih h' with hd | he
      · rcases mem_dictSet hd with hd' | rfl
        · left; exact hd'
        · right
          simp only [List.mem_cons]
          left
          cases e
          trivial
      · right; simp [he]

theorem mem_allRelationsOfBases {acc : List (String × SliceEntityRelationSchema)}
    {l : List SliceEntitySchema} {x : String × SliceEntityRelationSchema}
    (h : x ∈ allRelationsOfBases acc l) :
    x ∈ acc ∨ ∃ b ∈ l, x.2 ∈ SliceEntitySchema.allRelations b := by
  induction l generalizing acc with
  | nil =>
      left
      rw [allRelationsOfBases] at h
      exact h
  | cons b bs ih =>
      rw [allRelationsOfBases] at h
      rcases ih h with hacc | ⟨b', hb', hx⟩
      · rcases mem_dictUpdate hacc with hd | he
        · left; exact hd
        · right
          refine ⟨b, by simp, ?_⟩
          rcases List.mem_map.mp he with ⟨r, hr, hrx⟩
          have : x.2 = r := by rw [← hrx]
          rw [this]
          exact hr
      · right; exact ⟨b', by simp [hb'], hx⟩

theorem mem_allRelations_cases {r : SliceEntityRelationSchema} {s : SliceEntitySchema}
    (h : r ∈ s.allRelations) :
    r ∈ s.embeddedEntities ∨ ∃ b ∈ s.baseEntities, r ∈ SliceEntitySchema.allRelations b := by
  obtain ⟨n, ks, p, bases, attrs, rels⟩ := s
  rw [SliceEntitySchema.allRelations] at h
  rcases List.mem_map.mp h with ⟨⟨k, r'⟩, hkr, hr'⟩
  simp only at hr'
  subst hr'
  rcases mem_dictUpdate hkr with hd | he
  · rcases mem_allRelationsOfBases hd with hacc | ⟨b, hb, hx⟩
    · cases hacc
    · right
      exact ⟨b, by simpa [SliceEntitySchema.baseEntities] using List.mem_reverse.mp hb, hx⟩
  · left
    rcases List.mem_map.mp he with ⟨r'', hr'', hrx⟩
    have : r' = r'' := by
      have := congrArg Prod.snd hrx
      simpa using this.symm
    rw [this]
    simpa [SliceEntitySchema.embeddedEntities] using hr''

/-- Size bound used by the merge engine's termination argument: every
relation reachable through `allRelations` is strictly smaller than the
schema it was found in. -/
theorem relSize_lt_of_mem_allRelations :
    ∀ (n : Nat) (s : SliceEntitySchema), schemaSize s ≤ n →
      ∀ r ∈ s.allRelations, relSize r < schemaSize s := by
  intro n
  induction n with
  | zero =>
      intro s hs
      have := schemaSize_pos s
      omega
  | succ m ih =>
      intro s hs r hr
      rcases mem_allRelations_cases hr with hown | ⟨b, hb, hrb⟩
      · obtain ⟨nm, ks, p, bases, attrs, rels⟩ := s
        have h1 : relSize r ≤ relListSize rels := by
          apply relSize_le_of_mem
          simpa [SliceEntitySchema.embeddedEntities] using hown
        simp only [schemaSize]
        omega
      · obtain ⟨nm, ks, p, bases, attrs, rels⟩ := s
        have hb' : b ∈ bases := by simpa [SliceEntitySchema.baseEntities] using hb
        have hble : schemaSize b ≤ schemaListSize bases := schemaSize_le_of_mem hb'
        have hbs : schemaSize b ≤ m := by
          simp only [schemaSize] at hs
          omega
        have := ih b hbs r hrb
        simp only [schemaSize]
        omega

/-- Proof-carrying form of the size bound, in the shape the merge engine's
recursion consumes. -/
def relBound (s : SliceEntitySchema) :
    ∀ r ∈ s.allRelations, relSize r < schemaSize s :=
  relSize_lt_of_mem_allRelations (schemaSize s) s (Nat.le_refl _)

theorem relSize_eq (r : SliceEntityRelationSchema) :
    relSize r = 1 + schemaSize r.entity := by
  cases r
  rfl

/-- The attribute-copying loop of `merge_attributes` (`store.py`): for every
flattened schema attribute except the synthetic names `operation` and
`path`, assign `merged[name] = current.get(name)` (a missing attribute reads
back as `None`). -/
def copyAttributes (current : Value) :
    List SliceEntityAttributeSchema → List (String × Value) →
    Except MergeError (List (String × Value))
  | [], acc => .ok acc
  | a :: rest, acc =>
      if a.name = "operation" ∨ a.name = "path" then copyAttributes current rest acc
      else do
        let v ← current.pyGet a.name
        copyAttributes current rest (dictSet acc a.name v)

/-- Operation assigned to a relation sub-tree being recursed into
(`store.py`, both the optional-relation and the collection cases): the
enclosing operation when that is a delete, else create when there was no
previous sub-tree, else update. -/
def relationChildOperation (operation : String) (previousValue : Option Value) : String :=
  if operation = "delete" then operation
  else if previousValue = none then "create" else "update"

/-- Key tuple of one collection member: the Python tuple
`tuple((k, str(value[k])) for k in relation.entity.keys)` from
`merge_attributes`; raises on a member without a resolvable key value. -/
def memberKey (v : Value) : List String → Except MergeError KeyTuple
  | [] => .ok []
  | k :: rest => do
      let kv ← v.getItem k
      let restKey ← memberKey v rest
      pure ((k, pyStr kv) :: restKey)

/-- Index of a collection's members by key tuple: the dict comprehension of
`merge_attributes` (later members with an equal key override earlier ones,
keeping the first position, as a Python dict comprehension does). -/
def buildIndex (keys : List String) (acc : List (KeyTuple × Value)) :
    List Value → Except MergeError (List (KeyTuple × Value))
  | [] => .ok acc
  | v :: rest => do
      let k ← memberKey v keys
      buildIndex keys (dictSet acc k v) rest

/-- Union of the current and previous index key sets.  Python iterates
`current_values.keys() | previous_values.keys()` in an unspecified set
order; the embedding fixes a canonical order: current keys first (in index
order), then the previous-only keys (in index order). -/
def unionKeys (a b : List KeyTuple) : List KeyTuple :=
  a ++ b.filter (fun k => decide (k ∉ a))

/-- Python `previous.get(k) if previous is not None else None` from the
optional-relation case of `merge_attributes`. -/
def prevGetOpt (previous : Option Value) (k : String) : Except MergeError (Option Value) :=
  match previous with
  | none => .ok none
  | some p => p.pyGetOpt k

/-- Python `previous[k] if previous is not None else None` from the
required-relation case of `merge_attributes` (the fetched sub-tree is
passed on as the recursive `previous`, so a stored `None` becomes an absent
previous). -/
def prevGetItem (previous : Option Value) (k : String) : Except MergeError (Option Value) :=
  match previous with
  | none => .ok none
  | some p => do
      let w ← p.getItem k
      pure (denull w)

/-- Python `previous[k] if previous is not None else []` from the collection
case of `merge_attributes`, coerced to a list of members. -/
def prevList (previous : Option Value) (k : String) : Except MergeError (List Value) :=
  match previous with
  | none => .ok []
  | some p => do
      let pl ← p.getItem k
      pl.asList

mutual
/-- The merge engine `merge_attributes` of `store.py`: construct a merge of
the current and previous attribute trees, injecting the synthetic
`operation` and `path` fields, copying every flattened schema attribute
from `current`, and reconciling every flattened relation according to its
cardinality. -/
def mergeAttributes (current : Value) (previous : Option Value) (operation : String)
    (path : DictPath) (schema : SliceEntitySchema) : Except MergeError Value := do
  let base := [("operation", Value.str operation), ("path", Value.str path.render)]
  let withAttrs ← copyAttributes current schema.allAttributes base
  let fields ← mergeRelations current previous operation path withAttrs
      schema.allRelations (schemaSize schema) (relBound schema)
  pure (Value.obj fields)
termination_by (schemaSize schema, 1, 0)
decreasing_by
  exact Prod.Lex.right _ (Prod.Lex.left _ _ (by omega))
/-- The relation loop of `merge_attributes`: reconcile the flattened
relations in order, assigning `merged[relation.name]` for each. -/
def mergeRelations (current : Value) (previous : Option Value) (operation : String)
    (path : DictPath) (acc : List (String × Value))
    (rels : List SliceEntityRelationSchema) (bound : Nat)
    (h : ∀ r ∈ rels, relSize r < bound) : Except MergeError (List (String × Value)) :=
  match rels with
  | [] => .ok acc
  | r :: rest => do
      let v ← mergeRelationValue current previous operation path r
      mergeRelations current previous operation path (dictSet acc r.name v) rest bound
        (fun r' hr' => h r' (List.mem_cons_of_mem _ hr'))
termination_by (bound, 0, rels.length)
decreasing_by
  · exact Prod.Lex.left _ _ (h r (by simp))
  · exact Prod.Lex.right _ (Prod.Lex.right _ (by simp))
/-- Reconciliation of a single relation in `merge_attributes`, by
cardinality: (1,1) always recurses on `current[name]`; (0,1) distinguishes
the four current/previous presence cases; anything else is treated as a
keyed collection. -/
def mergeRelationValue (current : Value) (previous : Option Value) (operation : String)
    (path : DictPath) (r : SliceEntityRelationSchema) : Except MergeError Value :=
  if (r.cardinalityMin, r.cardinalityMax) = ((1 : Nat), some (1 : Nat)) then do
    let cv ← current.getItem r.name
    let pv ← prevGetItem previous r.name
    mergeAttributes cv pv operation (path.inDict r.name) r.entity
  else if (r.cardinalityMin, r.cardinalityMax) = ((0 : Nat), some (1 : Nat)) then do
    let cv ← current.pyGetOpt r.name
    let pv ← prevGetOpt previous r.name
    match cv, pv with
    | none, none => pure Value.null
    | none, some (Value.obj pf) => do
        let op ← Value.getItem (Value.obj pf) "operation"
        if op = Value.str "delete" then pure (Value.obj pf)
        else Except.error MergeError.assertionError
    | some cvv, pvv =>
        mergeAttributes cvv pvv (relationChildOperation operation pvv)
          (path.inDict r.name) r.entity
    | none, some _ => Except.error MergeError.valueError
  else do
    let cl ← current.getItem r.name
    let cvs ← cl.asList
    let pvs ← prevList previous r.name
    let cIdx ← buildIndex r.entity.keys [] cvs
    let pIdx ← buildIndex r.entity.keys [] pvs
    let ks := unionKeys (cIdx.map Prod.fst) (pIdx.map Prod.fst)
    let ms ← mergeCollection operation path r cIdx pIdx ks
    pure (Value.list ms)
termination_by (relSize r, 1, 0)
decreasing_by
  · exact Prod.Lex.left _ _ (by rw [relSize_eq]; omega)
  · exact Prod.Lex.left _ _ (by rw [relSize_eq]; omega)
  · exact Prod.Lex.left _ _ (by rw [relSize_eq]; omega)
/-- Reconciliation of a single collection member in `merge_attributes`: a
key present only in previous reuses its previous sub-tree unchanged after
asserting its operation is a delete; a key present in current recurses with
the structural path extended by a keyed-list locator (relation name plus
key tuple), never a positional index; a key resolving to neither is the
impossible combination and raises. -/
def mergeMember (operation : String) (path : DictPath) (r : SliceEntityRelationSchema)
    (cv pv : Option Value) (k : KeyTuple) : Except MergeError Value :=
  match cv, pv with
  | none, some (Value.obj pf) => do
      let op ← Value.getItem (Value.obj pf) "operation"
      if op = Value.str "delete" then pure (Value.obj pf)
      else Except.error MergeError.assertionError
  | some cvv, pvv =>
      mergeAttributes cvv pvv (relationChildOperation operation pvv)
        (path.keyedList r.name k) r.entity
  | _, _ => Except.error MergeError.valueError
termination_by (schemaSize r.entity, 1, 1)
decreasing_by
  exact Prod.Lex.right _ (Prod.Lex.right _ (by omega))
/-- The member loop of the collection case of `merge_attributes`: one merged
member per key in the union of the two index key sets. -/
def mergeCollection (operation : String) (path : DictPath)
    (r : SliceEntityRelationSchema) (cIdx pIdx : List (KeyTuple × Value)) :
    List KeyTuple → Except MergeError (List Value)
  | [] => .ok []
  | k :: rest => do
      let m ← mergeMember operation path r (denullOpt (dictGet cIdx k))
        (denullOpt (dictGet pIdx k)) k
      let ms ← mergeCollection operation path r cIdx pIdx rest
      pure (m :: ms)
termination_by ks => (schemaSize r.entity, 2, ks.length)
decreasing_by
  · exact Prod.Lex.right _ (Prod.Lex.left _ _ (by omega))
  · exact Prod.Lex.right _ (Prod.Lex.right _ (by simp))
end

/-- Compile mode of the enclosing run (`CompileMode` in `__init__.py`; the
mutable module global `COMPILE_MODE` of the `const` module is embedded as an
explicit parameter of every store operation). -/
inductive CompileMode where
  | update : CompileMode
  | sync : CompileMode
  | export : CompileMode
deriving DecidableEq

/-- A slice value (`Slice` in `__init__.py`): one named, versioned unit of
hierarchical configuration data. -/
structure Slice where
  name : String
  storeName : String
  version : Nat
  attributes : Value
  deleted : Bool
deriving DecidableEq

/-- One file of the internally managed active directory, named
`name@v<version>.json` on disk; the codec layer is external, so the decoded
content is carried directly. -/
structure ActiveFile where
  name : String
  version : Nat
  content : Value
deriving DecidableEq

/-- One draft file of the source directory, named `<name>.<ext>` on disk. -/
structure SourceFile where
  name : String
  content : Value
deriving DecidableEq

/-- On-disk state of one store: its draft directory and its active
directory. -/
structure DiskState where
  sourceFiles : List SourceFile
  activeFiles : List ActiveFile
deriving DecidableEq

/-- Well-formedness of a disk state: file names within a directory are
unique, so draft names are distinct and active (name, version) pairs are
distinct. -/
def DiskState.wf (st : DiskState) : Prop :=
  (st.sourceFiles.map SourceFile.name).Nodup ∧
  (st.activeFiles.map (fun f => (f.name, f.version))).Nodup

/-- Configuration of one slice store: its registered name, its entity
schema, and the external pydantic validate-and-default function applied by
`SliceFile.emit_slice` to non-deleted content. -/
structure StoreConfig where
  storeName : String
  schema : SliceEntitySchema
  validate : Value → Value

/-- Emission of a slice from a file's decoded content
(`SliceFile.emit_slice` in `store.py`, with the version already resolved):
content equal to the empty object means the slice is deleted; non-deleted
content is validated and defaulted by the external schema validator. -/
def emitSlice (cfg : StoreConfig) (name : String) (version : Nat) (content : Value) : Slice :=
  let deleted := decide (content = Value.obj [])
  { name := name
    storeName := cfg.storeName
    version := version
    attributes := if deleted then content else cfg.validate content
    deleted := deleted }

/-- Files of an active directory listing that carry the given slice name. -/
def filterName (files : List ActiveFile) (name : String) : List ActiveFile :=
  files.filter (fun f => decide (f.name = name))

/-- Active files carrying the given slice name (the per-name group built by
`load_active_slice_files`). -/
def activeFilesFor (st : DiskState) (name : String) : List ActiveFile :=
  filterName st.activeFiles name

/-- First file attaining the maximal version among `f :: fs`, embedding
`sorted(slices, key=version, reverse=True)[0]` (a stable descending sort
puts the first maximal element first). -/
def latestActiveFile (f : ActiveFile) (fs : List ActiveFile) : ActiveFile :=
  fs.foldl (fun best g => if best.version < g.version then g else best) f

/-- Latest active slice of a name (`SliceStore.get_latest_slice`): the
maximal active version, or a synthetic deleted slice at version 0 when the
name has no active history. -/
def getLatestSlice (cfg : StoreConfig) (st : DiskState) (name : String) : Slice :=
  match activeFilesFor st name with
  | [] =>
      { name := name
        storeName := cfg.storeName
        version := 0
        attributes := Value.obj []
        deleted := true }
  | f :: fs =>
      let b := latestActiveFile f fs
      emitSlice cfg name b.version b.content

/-- Deduplication keeping first occurrences, fixing an order for the name
sets Python iterates in unspecified set order. -/
def dedupKeepFirst : List String → List String
  | [] => []
  | x :: xs => x :: (dedupKeepFirst xs).filter (fun y => decide (y ≠ x))

/-- The slice a draft file becomes in `load_source_slices`: version 1 when
its name has no active history; the latest active slice itself when the raw
draft content equals the latest attributes; a new slice at the next version
otherwise. -/
def sourceSliceFor (cfg : StoreConfig) (st : DiskState) (f : SourceFile) : Slice :=
  match activeFilesFor st f.name with
  | [] => emitSlice cfg f.name 1 f.content
  | _ :: _ =>
      let latest := getLatestSlice cfg st f.name
      if f.content = latest.attributes then latest
      else emitSlice cfg f.name (latest.version + 1) f.content

/-- The deletion record produced by `load_source_slices` for a name with
active history and no draft file: the latest active slice when already
deleted, else a new deleted slice with empty content at the next version. -/
def deletionRecord (cfg : StoreConfig) (st : DiskState) (n : String) : Slice :=
  let latest := getLatestSlice cfg st n
  if latest.deleted then latest
  else
    { name := n
      storeName := cfg.storeName
      version := latest.version + 1
      attributes := Value.obj []
      deleted := true }

/-- Version assignment for the draft directory
(`SliceStore.load_source_slices`): every draft file contributes its
source-diffed slice, and every name with active history but no draft file
contributes its deletion record.  (Python iterates the set difference of
names in unspecified order; the embedding uses first-occurrence order of
the active directory.) -/
def loadSourceSlices (cfg : StoreConfig) (st : DiskState) : List (String × Slice) :=
  let sourceNames := st.sourceFiles.map SourceFile.name
  let deletedNames :=
    (dedupKeepFirst (st.activeFiles.map ActiveFile.name)).filter
      (fun n => decide (n ∉ sourceNames))
  st.sourceFiles.map (fun f => (f.name, sourceSliceFor cfg st f)) ++
    deletedNames.map (fun n => (n, deletionRecord cfg st n))

/-- Errors of the store layer.  In Python, KeyError and IndexError are
subclasses of LookupError; `isLookupLike` captures exactly the errors the
`except LookupError` handler of `get_slice_attribute` catches. -/
inductive StoreError where
  | lookupError : StoreError
  | keyError : StoreError
  | indexError : StoreError
  | typeError : StoreError
  | runtimeError : StoreError
  | mergeFailure (e : MergeError) : StoreError
deriving DecidableEq

def StoreError.isLookupLike : StoreError → Bool
  | .lookupError => true
  | .keyError => true
  | .indexError => true
  | .mergeFailure (.keyError _) => true
  | _ => false

/-- Python dict assignment on an embedded value that must be a dict, used
for the synthetic `version`, `slice_store` and `slice_name` fields of
`load_slices`. -/
def objSet (v : Value) (k : String) (w : Value) : Except StoreError Value :=
  match v with
  | .obj fs => .ok (Value.obj (dictSet fs k w))
  | _ => .error StoreError.typeError

/-- Stable insertion of an active file into a version-descending list. -/
def insertDescVersion (f : ActiveFile) : List ActiveFile → List ActiveFile
  | [] => [f]
  | g :: gs => if g.version ≤ f.version then f :: g :: gs else g :: insertDescVersion f gs

/-- Stable descending sort by version, embedding
`sorted(active_slices.get(s, []), key=version, reverse=True)`. -/
def sortDescVersion : List ActiveFile → List ActiveFile
  | [] => []
  | f :: fs => insertDescVersion f (sortDescVersion fs)

/-- The accumulating form of the pairwise history reduction of
`load_slices`: merge each next history tree into the accumulated one with a
delete operation. -/
def foldPreviousFrom (schema : SliceEntitySchema) (acc : Value) :
    List Value → Except MergeError Value
  | [] => .ok acc
  | p :: rest => do
      let m ← mergeAttributes acc (denull p) "delete" DictPath.nullPath schema
      foldPreviousFrom schema m rest

/-- The pairwise reduction of the history list in `load_slices`: while at
least two previous trees remain, merge the two newest with a delete
operation and put the result back at the head.  The while loop replaces the
first two list entries by their merge each iteration, which is exactly a
left fold of the merge over the tail starting from the head. -/
def foldPrevious (schema : SliceEntitySchema) : List Value → Except MergeError (List Value)
  | [] => .ok []
  | p0 :: rest => do
      let m ← foldPreviousFrom schema p0 rest
      pure [m]

/-- Resolution of one slice name in `load_slices`: pick the current slice
(source-diffed in update and sync modes, the latest active slice
otherwise), reduce the history, exclude the latest slice from its own
history when the current slice equals it, merge, and inject the synthetic
`version`, `slice_store` and `slice_name` fields.  When the current slice
is deleted the attributes of the newest reduced history tree are taken
instead; indexing `previous[0]` on an empty history is an IndexError. -/
def resolveSlice (cfg : StoreConfig) (mode : CompileMode) (st : DiskState)
    (sourceSlices : List (String × Slice)) (n : String) : Except StoreError Slice := do
  let latest := getLatestSlice cfg st n
  let current ←
    if mode = CompileMode.update ∨ mode = CompileMode.sync then
      match dictGet sourceSlices n with
      | some s => pure s
      | none => throw StoreError.keyError
    else
      pure latest
  let previous0 := (sortDescVersion (activeFilesFor st n)).map
    (fun f => (emitSlice cfg n f.version f.content).attributes)
  let previous1 := if current = latest then previous0.drop 1 else previous0
  let previous ← (foldPrevious cfg.schema previous1).mapError StoreError.mergeFailure
  let attributes ←
    if current.deleted then
      match previous with
      | [] => throw StoreError.indexError
      | a :: _ => pure a
    else
      (mergeAttributes current.attributes
        (match previous with
          | [] => none
          | a :: _ => denull a)
        (if previous.isEmpty then "create" else "update")
        DictPath.nullPath cfg.schema).mapError StoreError.mergeFailure
  let a1 ← objSet attributes "version" (Value.int current.version)
  let a2 ← objSet a1 "slice_store" (Value.str cfg.storeName)
  let a3 ← objSet a2 "slice_name" (Value.str n)
  pure { name := n
         storeName := cfg.storeName
         version := current.version
         attributes := a3
         deleted := current.deleted }

/-- The per-name loop of `load_slices`. -/
def resolveSlices (cfg : StoreConfig) (mode : CompileMode) (st : DiskState)
    (sourceSlices : List (String × Slice)) :
    List String → Except StoreError (List (String × Slice))
  | [] => .ok []
  | n :: rest => do
      let s ← resolveSlice cfg mode st sourceSlices n
      let others ← resolveSlices cfg mode st sourceSlices rest
      pure ((n, s) :: others)

/-- The externally visible slice set (`SliceStore.load_slices`): one
resolved slice per name known to the active history or (in update and sync
modes) to the source diff.  (Python iterates a name set in unspecified
order; the embedding uses active-directory order first, then new source
names.) -/
def loadSlices (cfg : StoreConfig) (mode : CompileMode) (st : DiskState) :
    Except StoreError (List (String × Slice)) :=
  let activeNames := dedupKeepFirst (st.activeFiles.map ActiveFile.name)
  let sourceSlices :=
    if mode = CompileMode.update ∨ mode = CompileMode.sync then loadSourceSlices cfg st
    else []
  let names := activeNames ++
    (sourceSlices.map Prod.fst).filter (fun n => decide (n ∉ activeNames))
  resolveSlices cfg mode st sourceSlices names

/-- Lookup of one resolved slice by name (`SliceStore.get_one_slice`):
raises LookupError when the name has no resolved slice. -/
def getOneSlice (cfg : StoreConfig) (mode : CompileMode) (st : DiskState)
    (name : String) : Except StoreError Slice := do
  let slices ← loadSlices cfg mode st
  match dictGet slices name with
  | some s => pure s
  | none => throw StoreError.lookupError

/-- Element lookup along a structural path (modelled from the external
`inmanta.util.dict_path` library at its interface: a missing dict key is a
KeyError, a keyed-list selector with no matching member is a LookupError). -/
def matchesKey (key : KeyTuple) (e : Value) : Bool :=
  key.all (fun kv =>
    match e with
    | .obj fs =>
        match dictGet fs kv.1 with
        | some w => decide (pyStr w = kv.2)
        | none => false
    | _ => false)

def pathGetElement : DictPath → Value → Except StoreError Value
  | .nullPath, v => .ok v
  | .inDict p k, v => do
      let parent ← pathGetElement p v
      match parent with
      | .obj fs =>
          match dictGet fs k with
          | some w => .ok w
          | none => .error StoreError.keyError
      | _ => .error StoreError.typeError
  | .keyedList p r key, v => do
      let parent ← pathGetElement p v
      match parent with
      | .obj fs =>
          match dictGet fs r with
          | some (.list es) =>
              match es.find? (matchesKey key) with
              | some e => .ok e
              | none => .error StoreError.lookupError
          | some _ => .error StoreError.typeError
          | none => .error StoreError.keyError
      | _ => .error StoreError.typeError

/-- Attribute fetch with a default (`SliceStore.get_slice_attribute`): the
whole lookup, including `get_one_slice`, runs under one
`except LookupError` handler that returns the default. -/
def getSliceAttribute (cfg : StoreConfig) (mode : CompileMode) (st : DiskState)
    (name : String) (p : DictPath) (defaultValue : Value) : Except StoreError Value :=
  match (do
      let s ← getOneSlice cfg mode st name
      pathGetElement p s.attributes : Except StoreError Value) with
  | .ok v => .ok v
  | .error e => if e.isLookupLike then .ok defaultValue else .error e

/-- Modification of the value at a structural path (modelled from the
external `inmanta.util.dict_path` library at its interface). -/
def pathUpdateAt : DictPath → Value → (Value → Except StoreError Value) →
    Except StoreError Value
  | .nullPath, v, f => f v
  | .inDict p k, v, f =>
      pathUpdateAt p v (fun parent =>
        match parent with
        | .obj fs =>
            match dictGet fs k with
            | some w => do
                let w' ← f w
                pure (Value.obj (dictSet fs k w'))
            | none => .error StoreError.keyError
        | _ => .error StoreError.typeError)
  | .keyedList p r key, v, f =>
      pathUpdateAt p v (fun parent =>
        match parent with
        | .obj fs =>
            match dictGet fs r with
            | some (.list es) =>
                match es.find? (matchesKey key) with
                | some e => do
                    let e' ← f e
                    pure (Value.obj (dictSet fs r
                      (Value.list (es.map (fun x => if matchesKey key x then e' else x)))))
                | none => .error StoreError.lookupError
            | some _ => .error StoreError.typeError
            | none => .error StoreError.keyError
        | _ => .error StoreError.typeError)

/-- Element assignment along a structural path (`set_element` of the
external `inmanta.util.dict_path` library, modelled at its interface). -/
def pathSetElement (p : DictPath) (root w : Value) : Except StoreError Value :=
  match p with
  | .nullPath => .error StoreError.runtimeError
  | .inDict parent k => pathUpdateAt parent root (fun v => objSet v k w)
  | .keyedList parent r key =>
      pathUpdateAt (DictPath.keyedList parent r key) root (fun _ => pure w)

/-- In-memory caches of one store during a run: the source-diffed slices and
the resolved slice set.  Python mutates the attribute dicts of the cached
`Slice` objects in place; the pure embedding carries the caches explicitly
and mutation becomes a cache update. -/
structure StoreCache where
  sourceSlices : List (String × Slice)
  slices : List (String × Slice)
deriving DecidableEq

/-- Attribute assignment on a cached slice
(`SliceStore.set_slice_attribute`): only legal during update compiles;
mutates the attribute tree of the cached source slice and of the cached
resolved slice in place (embedded as a cache update at an unchanged
version). -/
def setSliceAttribute (mode : CompileMode) (cache : StoreCache) (name : String)
    (p : DictPath) (w : Value) : Except StoreError (StoreCache × Value) :=
  if mode ≠ CompileMode.update then throw StoreError.runtimeError
  else do
    let src ← match dictGet cache.sourceSlices name with
      | some s => pure s
      | none => throw StoreError.keyError
    let srcAttrs ← pathSetElement p src.attributes w
    let res ← match dictGet cache.slices name with
      | some s => pure s
      | none => throw StoreError.lookupError
    let resAttrs ← pathSetElement p res.attributes w
    pure ({ sourceSlices := dictSet cache.sourceSlices name { src with attributes := srcAttrs }
            slices := dictSet cache.slices name { res with attributes := resAttrs } }, w)

/-- The `update_slice_attribute` plugin (`__init__.py`): no compile-mode
guard; mutates the attribute tree of the cached resolved slice in place
(embedded as a cache update at an unchanged version) and returns the
value. -/
def updateSliceAttribute (cache : StoreCache) (name : String) (p : DictPath)
    (w : Value) : Except StoreError (StoreCache × Value) := do
  let s ← match dictGet cache.slices name with
    | some s => pure s
    | none => throw StoreError.lookupError
  let attrs ← pathSetElement p s.attributes w
  pure ({ cache with slices := dictSet cache.slices name { s with attributes := attrs } }, w)

/-- Outcome of a sync: the sync-blocked names (empty means success; Python
raises a RuntimeError naming them) and the resulting disk state. -/
structure SyncOutcome where
  blocked : List String
  disk : DiskState
deriving DecidableEq

/-- The change-detection loop of `SliceStore.sync`: re-read each draft file
and compare with the slice computed at load time; a mismatched draft is
registered as changed and its file is overwritten with the slice's
attributes so the content is persisted before the failure is raised. -/
def syncCheck (slices : List (String × Slice)) (files : List SourceFile)
    (nowContent : String → Value) : Except StoreError (List String × List SourceFile) :=
  match files with
  | [] => .ok ([], [])
  | f :: rest => do
      let s ← match dictGet slices f.name with
        | some s => pure s
        | none => throw StoreError.keyError
      let (ns, ds) ← syncCheck slices rest nowContent
      if nowContent f.name = s.attributes then
        .ok (ns, { name := f.name, content := nowContent f.name } :: ds)
      else
        .ok (f.name :: ns, { name := f.name, content := s.attributes } :: ds)

/-- Creation or overwrite of one active file `name@v<version>.json` (a
directory holds at most one file per name). -/
def upsertActive : List ActiveFile → ActiveFile → List ActiveFile
  | [], f => [f]
  | g :: gs, f =>
      if g.name = f.name ∧ g.version = f.version then f :: gs
      else g :: upsertActive gs f

/-- The promotion loop of `SliceStore.sync`: write every source slice as an
active file at its assigned version. -/
def promoteSlices (files : List ActiveFile) : List (String × Slice) → List ActiveFile
  | [] => files
  | (_, s) :: rest =>
      promoteSlices (upsertActive files ⟨s.name, s.version, s.attributes⟩) rest

/-- Activation of the source slices (`SliceStore.sync`): only legal during a
sync compile; re-reads every draft file (`nowContent` gives the on-disk
draft contents at sync time, which a mid-run edit may have changed since
load time) and compares with the slices computed at load time; on any
mismatch the slices' contents are written to the draft files and the sync
is blocked (Python raises) without promoting anything; otherwise every
source slice is written to the active directory. -/
def syncStore (cfg : StoreConfig) (mode : CompileMode) (st : DiskState)
    (nowContent : String → Value) : Except StoreError SyncOutcome :=
  if mode ≠ CompileMode.sync then throw StoreError.runtimeError
  else do
    let slices := loadSourceSlices cfg st
    let (changedNames, newDrafts) ← syncCheck slices st.sourceFiles nowContent
    if changedNames = [] then
      pure { blocked := []
             disk := { sourceFiles := newDrafts
                       activeFiles := promoteSlices st.activeFiles slices } }
    else
      pure { blocked := changedNames
             disk := { sourceFiles := newDrafts
                       activeFiles := st.activeFiles } }

/-!
Helper lemmas about the dict embedding and the store, followed by the claim
theorems.
-/

theorem dictGet_dictSet_self {κ α : Type} [DecidableEq κ] (d : List (κ × α)) (k : κ) (v : α) :
    dictGet (dictSet d k v) k = some v := by
  induction d with
  | nil => simp [dictSet, dictGet]
  | cons e rest ih =>
      obtain ⟨k', v'⟩ := e
      by_cases hk : k' = k
      · simp [dictSet, hk, dictGet]
      · simp [dictSet, hk, dictGet, ih]

theorem dictGet_dictSet_other {κ α : Type} [DecidableEq κ] (d : List (κ × α)) (k k' : κ)
    (v : α) (hk : k ≠ k') : dictGet (dictSet d k v) k' = dictGet d k' := by
  induction d with
  | nil => simp [dictSet, dictGet, hk]
  | cons e rest ih =>
      obtain ⟨k'', v''⟩ := e
      by_cases h2 : k'' = k
      · subst h2
        simp [dictSet, dictGet, hk]
      · simp [dictSet, h2, dictGet, ih]

theorem dictGet_append {κ α : Type} [DecidableEq κ] (a b : List (κ × α)) (k : κ) :
    dictGet (a ++ b) k =
      match dictGet a k with
      | some v => some v
      | none => dictGet b k := by
  induction a with
  | nil => simp [dictGet]
  | cons e rest ih =>
      obtain ⟨k', v⟩ := e
      by_cases hk : k' = k
      · simp [dictGet, hk]
      · simp [dictGet, hk, ih]

theorem dictGet_map_self {α : Type} {l : List String} {n : String} (g : String → α)
    (h : n ∈ l) : dictGet (l.map fun x => (x, g x)) n = some (g n) := by
  induction l with
  | nil => cases h
  | cons x xs ih =>
      rcases List.mem_cons.mp h with rfl | h'
      · simp [dictGet]
      · by_cases hx : x = n
        · subst hx
          simp [dictGet]
        · simp [dictGet, hx, ih h']

theorem dictGet_map_none {κ β α : Type} [DecidableEq κ] {l : List β} {n : κ}
    (key : β → κ) (g : β → α) (h : ∀ x ∈ l, key x ≠ n) :
    dictGet (l.map fun x => (key x, g x)) n = none := by
  induction l with
  | nil => simp [dictGet]
  | cons x xs ih =>
      have hx : key x ≠ n := h x (by simp)
      simp only [List.map_cons, dictGet, hx, if_false]
      exact ih (fun y hy => h y (by simp [hy]))

theorem dictGet_map_key_nodup {κ β α : Type} [DecidableEq κ] {l : List β} {f : β}
    (key : β → κ) (g : β → α) (hnd : (l.map key).Nodup) (h : f ∈ l) :
    dictGet (l.map fun x => (key x, g x)) (key f) = some (g f) := by
  induction l with
  | nil => cases h
  | cons x xs ih =>
      rcases List.mem_cons.mp h with rfl | h'
      · simp [dictGet]
      · rcases List.nodup_cons.mp hnd with ⟨h1, h2⟩
        have hx : key x ≠ key f := by
          intro he
          have : key f ∈ xs.map key := List.mem_map_of_mem key h'
          rw [← he] at this
          exact h1 this
        simp only [List.map_cons, dictGet, hx, if_false]
        exact ih h2 h'

theorem mem_dedupKeepFirst {l : List String} {n : String} :
    n ∈ dedupKeepFirst l ↔ n ∈ l := by
  induction l with
  | nil => simp [dedupKeepFirst]
  | cons x xs ih =>
      by_cases hx : n = x
      · subst hx
        simp [dedupKeepFirst]
      · simp [dedupKeepFirst, hx, List.mem_filter, ih]

/-- C4: for every name that appears in the active history but has no
corresponding draft file, `load_source_slices` produces a deletion record:
the latest active slice itself when it is already deleted (same version),
otherwise a new slice with `version = latest.version + 1`, empty-object
attributes, and `deleted = true`. -/
theorem C4_deletion_records (cfg : StoreConfig) (st : DiskState) (n : String)
    (hactive : n ∈ st.activeFiles.map ActiveFile.name)
    (hnosrc : n ∉ st.sourceFiles.map SourceFile.name) :
    dictGet (loadSourceSlices cfg st) n = some (deletionRecord cfg st n) := by
  unfold loadSourceSlices
  rw [dictGet_append]
  have hsrc : dictGet (st.sourceFiles.map fun f => (f.name, sourceSliceFor cfg st f)) n
      = none := by
    apply dictGet_map_none
    intro f hf he
    exact hnosrc (he ▸ List.mem_map_of_mem SourceFile.name hf)
  rw [hsrc]
  have hmem : n ∈ (dedupKeepFirst (st.activeFiles.map ActiveFile.name)).filter
      (fun m => decide (m ∉ st.sourceFiles.map SourceFile.name)) := by
    rw [List.mem_filter]
    exact ⟨mem_dedupKeepFirst.mpr hactive, by simpa using hnosrc⟩
  exact dictGet_map_self (fun m => deletionRecord cfg st m) hmem

/-- C4 witness: a store whose active history holds one undeleted version of
`s1` and whose draft directory is empty produces the synthesized tombstone
at version 2. -/
theorem C4_deletion_records_witness :
    ("s1" ∈ (DiskState.mk []
        [⟨"s1", 1, Value.obj [("a", Value.int 0)]⟩]).activeFiles.map ActiveFile.name ∧
     "s1" ∉ (DiskState.mk []
        [⟨"s1", 1, Value.obj [("a", Value.int 0)]⟩]).sourceFiles.map SourceFile.name) ∧
    dictGet (loadSourceSlices ⟨"w", .mk "E" [] [] [] [⟨"a"⟩] [], id⟩
        ⟨[], [⟨"s1", 1, Value.obj [("a", Value.int 0)]⟩]⟩) "s1" =
      some (deletionRecord ⟨"w", .mk "E" [] [] [] [⟨"a"⟩] [], id⟩
        ⟨[], [⟨"s1", 1, Value.obj [("a", Value.int 0)]⟩]⟩ "s1") :=
  ⟨⟨by decide, by decide⟩,
    C4_deletion_records ⟨"w", .mk "E" [] [] [] [⟨"a"⟩] [], id⟩
      ⟨[], [⟨"s1", 1, Value.obj [("a", Value.int 0)]⟩]⟩ "s1" (by decide) (by decide)⟩

/-- C9: for a name with no resolved slice, `get_slice_attribute` returns the
default instead of propagating the LookupError raised by `get_one_slice`;
the same `except LookupError` handler that supplies the default for a
missing attribute path swallows the missing-slice error. -/
theorem C9_missing_slice_default (cfg : StoreConfig) (mode : CompileMode) (st : DiskState)
    (name : String) (p : DictPath) (d : Value) (slices : List (String × Slice))
    (hload : loadSlices cfg mode st = .ok slices)
    (hmiss : dictGet slices name = none) :
    getOneSlice cfg mode st name = .error StoreError.lookupError ∧
    getSliceAttribute cfg mode st name p d = .ok d := by
  have hone : getOneSlice cfg mode st name = .error StoreError.lookupError := by
    unfold getOneSlice
    rw [hload]
    simp [bind, Except.bind, hmiss, throw, throwThe, MonadExceptOf.throw]
  refine ⟨hone, ?_⟩
  unfold getSliceAttribute
  rw [show (do
      let s ← getOneSlice cfg mode st name
      pathGetElement p s.attributes : Except StoreError Value) =
        .error StoreError.lookupError by rw [hone]; rfl]
  simp [StoreError.isLookupLike]

/-- C9 witness: an empty store resolves no slice, and the default is
returned for any name. -/
theorem C9_missing_slice_default_witness :
    loadSlices ⟨"w", .mk "E" [] [] [] [⟨"a"⟩] [], id⟩ CompileMode.export ⟨[], []⟩ =
        .ok [] ∧
    getSliceAttribute ⟨"w", .mk "E" [] [] [] [⟨"a"⟩] [], id⟩ CompileMode.export ⟨[], []⟩
        "s1" (DictPath.inDict DictPath.nullPath "a") (Value.int 7) = .ok (Value.int 7) :=
  ⟨by decide,
    (C9_missing_slice_default ⟨"w", .mk "E" [] [] [] [⟨"a"⟩] [], id⟩ CompileMode.export
      ⟨[], []⟩ "s1" (DictPath.inDict DictPath.nullPath "a") (Value.int 7) []
      (by decide) (by decide)).2⟩

theorem except_bind_ok {ε α β : Type} {x : Except ε α} {f : α → Except ε β} {b : β} :
    (x >>= f) = .ok b ↔ ∃ a, x = .ok a ∧ f a = .ok b := by
  cases x <;> simp [Bind.bind, Except.bind]

theorem pyGet_ok {c : Value} {k : String} {v : Value} (h : Value.pyGet c k = .ok v) :
    ∃ cf, c = Value.obj cf ∧ v = (dictGet cf k).getD Value.null := by
  cases c <;> simp [Value.pyGet] at h
  exact ⟨_, rfl, h.symm⟩

theorem copyAttributes_frame {c : Value} (n : String) :
    ∀ (attrs : List SliceEntityAttributeSchema) (acc out : List (String × Value)),
      (∀ a ∈ attrs, SliceEntityAttributeSchema.name a ≠ n) →
      copyAttributes c attrs acc = .ok out →
      dictGet out n = dictGet acc n := by
  intro attrs
  induction attrs with
  | nil =>
      intro acc out hn hok
      rw [copyAttributes] at hok
      cases hok
      rfl
  | cons a rest ih =>
      intro acc out hn hok
      rw [copyAttributes] at hok
      by_cases hskip : a.name = "operation" ∨ a.name = "path"
      · rw [if_pos hskip] at hok
        exact ih acc out (fun b hb => hn b (by simp [hb])) hok
      · rw [if_neg hskip] at hok
        rcases except_bind_ok.mp hok with ⟨v, _, h2⟩
        have := ih (dictSet acc a.name v) out (fun b hb => hn b (by simp [hb])) h2
        rw [this, dictGet_dictSet_other _ _ _ _ (hn a (by simp))]

theorem copyAttributes_hit {c : Value} {n : String}
    (hop : n ≠ "operation") (hpath : n ≠ "path") :
    ∀ (attrs : List SliceEntityAttributeSchema) (acc out : List (String × Value)),
      (∃ a ∈ attrs, SliceEntityAttributeSchema.name a = n) →
      copyAttributes c attrs acc = .ok out →
      ∃ cf, c = Value.obj cf ∧ dictGet out n = some ((dictGet cf n).getD Value.null) := by
  intro attrs
  induction attrs with
  | nil =>
      intro acc out hmem
      rcases hmem with ⟨a, ha, _⟩
      cases ha
  | cons a rest ih =>
      intro acc out hmem hok
      rw [copyAttributes] at hok
      by_cases hskip : a.name = "operation" ∨ a.name = "path"
      · rw [if_pos hskip] at hok
        rcases hmem with ⟨a0, ha0, hname⟩
        have ha0r : a0 ∈ rest := by
          rcases List.mem_cons.mp ha0 with rfl | hr
          · exfalso
            rcases hskip with h | h
            · exact hop (hname ▸ h ▸ rfl)
            · exact hpath (hname ▸ h ▸ rfl)
          · exact hr
        exact ih acc out ⟨a0, ha0r, hname⟩ hok
      · rw [if_neg hskip] at hok
        rcases except_bind_ok.mp hok with ⟨v, hv, h2⟩
        by_cases hrest : ∃ b ∈ rest, SliceEntityAttributeSchema.name b = n
        · exact ih (dictSet acc a.name v) out hrest h2
        · rcases hmem with ⟨a0, ha0, hname⟩
          have han : a.name = n := by
            rcases List.mem_cons.mp ha0 with rfl | hr
            · exact hname
            · exact absurd ⟨a0, hr, hname⟩ hrest
          rcases pyGet_ok hv with ⟨cf, rfl, hvv⟩
          refine ⟨cf, rfl, ?_⟩
          have hfr := copyAttributes_frame n rest (dictSet acc a.name v) out
            (fun b hb hbn => hrest ⟨b, hb, hbn⟩) h2
          rw [hfr, han, dictGet_dictSet_self, hvv, han]

theorem mergeRelations_frame (c : Value) (p : Option Value) (o : String)
    (path : DictPath) (n : String) :
    ∀ (rels : List SliceEntityRelationSchema) (acc : List (String × Value)) (bound : Nat)
      (h : ∀ r ∈ rels, relSize r < bound) (out : List (String × Value)),
      (∀ r ∈ rels, SliceEntityRelationSchema.name r ≠ n) →
      mergeRelations c p o path acc rels bound h = .ok out →
      dictGet out n = dictGet acc n := by
  intro rels
  induction rels with
  | nil =>
      intro acc bound h out hn hok
      rw [mergeRelations] at hok
      cases hok
      rfl
  | cons r rest ih =>
      intro acc bound h out hn hok
      rw [mergeRelations] at hok
      rcases except_bind_ok.mp hok with ⟨v, _, h2⟩
      have := ih (dictSet acc r.name v) bound _ out (fun r' hr' => hn r' (by simp [hr'])) h2
      rw [this, dictGet_dictSet_other _ _ _ _ (hn r (by simp))]

theorem mergeRelations_hit (c : Value) (p : Option Value) (o : String)
    (path : DictPath) (r : SliceEntityRelationSchema) :
    ∀ (rels : List SliceEntityRelationSchema) (acc : List (String × Value)) (bound : Nat)
      (h : ∀ r' ∈ rels, relSize r' < bound) (out : List (String × Value)),
      (rels.map SliceEntityRelationSchema.name).Nodup → r ∈ rels →
      mergeRelations c p o path acc rels bound h = .ok out →
      ∃ v, mergeRelationValue c p o path r = .ok v ∧ dictGet out r.name = some v := by
  intro rels
  induction rels with
  | nil =>
      intro acc bound h out _ hmem
      cases hmem
  | cons r0 rest ih =>
      intro acc bound h out hnd hmem hok
      rw [mergeRelations] at hok
      rcases except_bind_ok.mp hok with ⟨v0, hv0, h2⟩
      have hnd' : (∀ x ∈ rest, ¬SliceEntityRelationSchema.name x = r0.name) ∧
          (rest.map SliceEntityRelationSchema.name).Nodup := by
        simpa using hnd
      rcases hnd' with ⟨hnotin, hndrest⟩
      rcases List.mem_cons.mp hmem with rfl | hrest
      · refine ⟨v0, hv0, ?_⟩
        have hpost : ∀ r' ∈ rest, SliceEntityRelationSchema.name r' ≠ r.name :=
          fun r' hr' he => hnotin r' hr' he
        have := mergeRelations_frame c p o path r.name rest (dictSet acc r.name v0) bound _
          out hpost h2
        rw [this, dictGet_dictSet_self]
      · exact ih (dictSet acc r0.name v0) bound _ out hndrest hrest h2

theorem mergeAttributes_ok_iff {c : Value} {p : Option Value} {o : String}
    {path : DictPath} {schema : SliceEntitySchema} {m : Value} :
    mergeAttributes c p o path schema = .ok m ↔
    ∃ withAttrs fields,
      copyAttributes c schema.allAttributes
        [("operation", Value.str o), ("path", Value.str path.render)] = .ok withAttrs ∧
      mergeRelations c p o path withAttrs schema.allRelations (schemaSize schema)
        (relBound schema) = .ok fields ∧
      m = Value.obj fields := by
  rw [mergeAttributes]
  constructor
  · intro h
    rcases except_bind_ok.mp h with ⟨withAttrs, h1, h2⟩
    rcases except_bind_ok.mp h2 with ⟨fields, h3, h4⟩
    refine ⟨withAttrs, fields, h1, h3, ?_⟩
    cases h4
    rfl
  · rintro ⟨withAttrs, fields, h1, h3, rfl⟩
    rw [except_bind_ok]
    refine ⟨withAttrs, h1, ?_⟩
    rw [except_bind_ok]
    exact ⟨fields, h3, rfl⟩

theorem map_fst_dictSet {κ α : Type} [DecidableEq κ] (d : List (κ × α)) (k : κ) (v : α) :
    (dictSet d k v).map Prod.fst =
      if k ∈ d.map Prod.fst then d.map Prod.fst else d.map Prod.fst ++ [k] := by
  induction d with
  | nil => simp [dictSet]
  | cons e rest ih =>
      obtain ⟨k', v'⟩ := e
      by_cases hk : k' = k
      · subst hk
        simp [dictSet]
      · have hne : ¬k = k' := fun h => hk h.symm
        simp only [dictSet, hk, if_false, List.map_cons, ih]
        by_cases hmem : k ∈ rest.map Prod.fst
        · simp [hmem, hne]
        · simp [hmem, hne]

theorem nodup_map_fst_dictSet {κ α : Type} [DecidableEq κ] {d : List (κ × α)} {k : κ} {v : α}
    (h : (d.map Prod.fst).Nodup) : ((dictSet d k v).map Prod.fst).Nodup := by
  rw [map_fst_dictSet]
  by_cases hmem : k ∈ d.map Prod.fst
  · simpa [hmem] using h
  · simp only [hmem, if_false]
    simp [List.nodup_append, h, hmem]

theorem nodup_map_fst_dictUpdate {κ α : Type} [DecidableEq κ] {es d : List (κ × α)}
    (h : (d.map Prod.fst).Nodup) : ((dictUpdate d es).map Prod.fst).Nodup := by
  induction es generalizing d with
  | nil => simpa [dictUpdate] using h
  | cons e rest ih =>
      have : dictUpdate d (e :: rest) = dictUpdate (dictSet d e.1 e.2) rest := by
        simp [dictUpdate]
      rw [this]
      exact ih (nodup_map_fst_dictSet h)

theorem keyed_dictSet {κ α : Type} [DecidableEq κ] {d : List (κ × α)} {k : κ} {v : α}
    (keyf : α → κ) (hd : ∀ x ∈ d, x.1 = keyf x.2) (hkv : k = keyf v) :
    ∀ x ∈ dictSet d k v, x.1 = keyf x.2 := by
  intro x hx
  rcases mem_dictSet hx with h | rfl
  · exact hd x h
  · exact hkv

theorem keyed_dictUpdate {κ α : Type} [DecidableEq κ] {d es : List (κ × α)}
    (keyf : α → κ) (hd : ∀ x ∈ d, x.1 = keyf x.2) (hes : ∀ x ∈ es, x.1 = keyf x.2) :
    ∀ x ∈ dictUpdate d es, x.1 = keyf x.2 := by
  intro x hx
  rcases mem_dictUpdate hx with h | h
  · exact hd x h
  · exact hes x h

theorem allRelationsOfBases_keyed_nodup :
    ∀ (l : List SliceEntitySchema) (acc : List (String × SliceEntityRelationSchema)),
      ((acc.map Prod.fst).Nodup ∧
        ∀ x ∈ acc, x.1 = SliceEntityRelationSchema.name x.2) →
      (((allRelationsOfBases acc l).map Prod.fst).Nodup ∧
        ∀ x ∈ allRelationsOfBases acc l, x.1 = SliceEntityRelationSchema.name x.2) := by
  intro l
  induction l with
  | nil =>
      intro acc hacc
      rw [allRelationsOfBases]
      exact hacc
  | cons b bs ih =>
      intro acc hacc
      rw [allRelationsOfBases]
      apply ih
      constructor
      · exact nodup_map_fst_dictUpdate hacc.1
      · apply keyed_dictUpdate _ hacc.2
        intro x hx
        rcases List.mem_map.mp hx with ⟨r, _, rfl⟩
        rfl

theorem allRelations_names_nodup (s : SliceEntitySchema) :
    (s.allRelations.map SliceEntityRelationSchema.name).Nodup := by
  obtain ⟨n, ks, p, bases, attrs, rels⟩ := s
  rw [SliceEntitySchema.allRelations]
  have hbase := allRelationsOfBases_keyed_nodup bases.reverse []
    ⟨by simp, by intro x hx; cases hx⟩
  have hnd : (((dictUpdate (allRelationsOfBases [] bases.reverse)
      (rels.map fun r => (r.name, r))).map Prod.fst)).Nodup :=
    nodup_map_fst_dictUpdate hbase.1
  have hkeyed : ∀ x ∈ dictUpdate (allRelationsOfBases [] bases.reverse)
      (rels.map fun r => (r.name, r)), x.1 = SliceEntityRelationSchema.name x.2 := by
    apply keyed_dictUpdate _ hbase.2
    intro x hx
    rcases List.mem_map.mp hx with ⟨r, _, rfl⟩
    rfl
  have : ((dictUpdate (allRelationsOfBases [] bases.reverse)
        (rels.map fun r => (r.name, r))).map Prod.snd).map
          SliceEntityRelationSchema.name =
      (dictUpdate (allRelationsOfBases [] bases.reverse)
        (rels.map fun r => (r.name, r))).map Prod.fst := by
    rw [List.map_map]
    apply List.map_congr_left
    intro x hx
    exact (hkeyed x hx).symm
  rw [this]
  exact hnd

theorem getItem_obj_ok {pf : List (String × Value)} {k : String} {v : Value}
    (h : Value.getItem (Value.obj pf) k = .ok v) : dictGet pf k = some v := by
  rw [Value.getItem] at h
  cases hd : dictGet pf k with
  | none => rw [hd] at h; cases h
  | some w => rw [hd] at h; cases h; rfl

/-- C1: for every `merge_attributes` call that succeeds and every
optional-singular relation `r` (cardinality (0,1)) of the schema, the
merged tree binds `r` as follows: `r` absent in both current and previous
gives `None`; `r` absent in current but present in previous reuses the
previous sub-tree verbatim, and the engine asserts that sub-tree's
`operation` field equals `delete`; `r` present in current gives the
recursive merge of the two sub-trees, with the child operation computed by
`relationChildOperation` (`delete` when the enclosing operation is
`delete`, else `create` when the previous sub-tree is absent, else
`update`). -/
theorem C1_optional_relation_cases
    (current : Value) (previous : Option Value) (operation : String)
    (path : DictPath) (schema : SliceEntitySchema) (r : SliceEntityRelationSchema)
    (m : Value) (cv pv : Option Value)
    (hr : r ∈ schema.allRelations)
    (hmin : r.cardinalityMin = 0) (hmax : r.cardinalityMax = some 1)
    (hm : mergeAttributes current previous operation path schema = .ok m)
    (hcv : current.pyGetOpt r.name = .ok cv)
    (hpv : prevGetOpt previous r.name = .ok pv) :
    ∃ fields, m = Value.obj fields ∧
      (cv = none → pv = none → dictGet fields r.name = some Value.null) ∧
      (∀ pf, cv = none → pv = some (Value.obj pf) →
        dictGet pf "operation" = some (Value.str "delete") ∧
        dictGet fields r.name = some (Value.obj pf)) ∧
      (∀ cvv, cv = some cvv →
        ∃ mv, mergeAttributes cvv pv (relationChildOperation operation pv)
            (path.inDict r.name) r.entity = .ok mv ∧
          dictGet fields r.name = some mv) := by
  rcases mergeAttributes_ok_iff.mp hm with ⟨withAttrs, fields, _, hmr, rfl⟩
  obtain ⟨v, hv, hlook⟩ := mergeRelations_hit current previous operation path r
    schema.allRelations withAttrs (schemaSize schema) (relBound schema) fields
    (allRelations_names_nodup schema) hr hmr
  rw [mergeRelationValue] at hv
  rw [hmin, hmax] at hv
  rw [if_neg (by simp), if_pos rfl] at hv
  rcases except_bind_ok.mp hv with ⟨cv0, hcv0, hv2⟩
  obtain rfl : cv0 = cv := by
    rw [hcv0] at hcv
    exact (Except.ok.injEq _ _).mp hcv
  rcases except_bind_ok.mp hv2 with ⟨pv0, hpv0, hv3⟩
  obtain rfl : pv0 = pv := by
    rw [hpv0] at hpv
    exact (Except.ok.injEq _ _).mp hpv
  refine ⟨fields, rfl, ?_, ?_, ?_⟩
  · rintro rfl rfl
    simp only [pure, Except.pure, Except.ok.injEq] at hv3
    rw [hlook, hv3]
  · rintro pf rfl rfl
    simp only [] at hv3
    rcases except_bind_ok.mp hv3 with ⟨op, hop, hif⟩
    have hopd := getItem_obj_ok hop
    by_cases hdel : op = Value.str "delete"
    · rw [if_pos hdel] at hif
      simp only [pure, Except.pure, Except.ok.injEq] at hif
      exact ⟨hdel ▸ hopd, hif ▸ hlook⟩
    · rw [if_neg hdel] at hif
      cases hif
  · rintro cvv rfl
    exact ⟨v, hv3, hlook⟩

/-- C1 witness: a schema with one optional relation `sub`, exercising the
reuse-previous case at a concrete input. -/
theorem C1_optional_relation_cases_witness :
    ∃ fields,
      Value.obj [("operation", Value.str "update"), ("path", Value.str "."),
        ("x", Value.int 1),
        ("sub", Value.obj [("operation", Value.str "delete"), ("a", Value.int 7)])]
        = Value.obj fields ∧
      ((none : Option Value) = none → (some (Value.obj [("operation", Value.str "delete"),
          ("a", Value.int 7)]) : Option Value) = none →
        dictGet fields "sub" = some Value.null) ∧
      (∀ pf, (none : Option Value) = none →
        (some (Value.obj [("operation", Value.str "delete"), ("a", Value.int 7)]) :
            Option Value) = some (Value.obj pf) →
        dictGet pf "operation" = some (Value.str "delete") ∧
        dictGet fields "sub" = some (Value.obj pf)) ∧
      (∀ cvv, (none : Option Value) = some cvv →
        ∃ mv, mergeAttributes cvv (some (Value.obj [("operation", Value.str "delete"),
              ("a", Value.int 7)]))
            (relationChildOperation "update" (some (Value.obj [("operation",
              Value.str "delete"), ("a", Value.int 7)])))
            (DictPath.nullPath.inDict "sub")
            (SliceEntitySchema.mk "Sub" [] [] [] [⟨"a"⟩] []) = .ok mv ∧
          dictGet fields "sub" = some mv) := by
  have hr : SliceEntityRelationSchema.mk "sub" (.mk "Sub" [] [] [] [⟨"a"⟩] []) 0 (some 1) ∈
      (SliceEntitySchema.mk "P" [] [] [] [⟨"x"⟩]
        [.mk "sub" (.mk "Sub" [] [] [] [⟨"a"⟩] []) 0 (some 1)]).allRelations := by
    simp [SliceEntitySchema.allRelations, allRelationsOfBases, dictUpdate, dictSet,
      SliceEntityRelationSchema.name]
  have hm : mergeAttributes (Value.obj [("x", Value.int 1)])
      (some (Value.obj [("x", Value.int 0),
        ("sub", Value.obj [("operation", Value.str "delete"), ("a", Value.int 7)])]))
      "update" DictPath.nullPath
      (SliceEntitySchema.mk "P" [] [] [] [⟨"x"⟩]
        [.mk "sub" (.mk "Sub" [] [] [] [⟨"a"⟩] []) 0 (some 1)]) =
      .ok (Value.obj [("operation", Value.str "update"), ("path", Value.str "."),
        ("x", Value.int 1),
        ("sub", Value.obj [("operation", Value.str "delete"), ("a", Value.int 7)])]) := by
    simp [mergeAttributes, SliceEntitySchema.allAttributes, SliceEntitySchema.allRelations,
      allAttributesOfBases, allRelationsOfBases, dictUpdate, dictSet, copyAttributes,
      mergeRelations, mergeRelationValue, prevGetOpt, prevGetItem, Value.pyGet,
      Value.pyGetOpt, Value.getItem, dictGet, DictPath.render, Except.bind, bind, pure,
      Except.pure, SliceEntityRelationSchema.cardinalityMin,
      SliceEntityRelationSchema.cardinalityMax, SliceEntityRelationSchema.name,
      SliceEntityRelationSchema.entity, SliceEntitySchema.attributes,
      SliceEntitySchema.embeddedEntities, SliceEntitySchema.baseEntities,
      SliceEntityAttributeSchema.name]
  exact C1_optional_relation_cases (Value.obj [("x", Value.int 1)])
    (some (Value.obj [("x", Value.int 0),
      ("sub", Value.obj [("operation", Value.str "delete"), ("a", Value.int 7)])]))
    "update" DictPath.nullPath
    (SliceEntitySchema.mk "P" [] [] [] [⟨"x"⟩]
      [.mk "sub" (.mk "Sub" [] [] [] [⟨"a"⟩] []) 0 (some 1)])
    (SliceEntityRelationSchema.mk "sub" (.mk "Sub" [] [] [] [⟨"a"⟩] []) 0 (some 1))
    (Value.obj [("operation", Value.str "update"), ("path", Value.str "."),
      ("x", Value.int 1),
      ("sub", Value.obj [("operation", Value.str "delete"), ("a", Value.int 7)])])
    none (some (Value.obj [("operation", Value.str "delete"), ("a", Value.int 7)]))
    hr rfl rfl hm (by decide) (by decide)

/-- C7 counterexample: the claim fails as stated for the synthetic field
names.  Every schema reflected from `SliceObjectABC` lists `operation` and
`path` among `all_attributes()` (they are string fields of the base class),
yet `merge_attributes` skips them in the copying loop and overwrites them
with the merge's own operation tag and rendered path.  At this input the
schema lists the attribute `operation`, current carries `operation = "xyz"`,
and the merged tree carries `operation = "create"` instead of the current
value. -/
theorem C7_merge_purity_counterexample :
    (∃ a ∈ (SliceEntitySchema.mk "E" [] [] [] [⟨"operation"⟩, ⟨"a"⟩] []).allAttributes,
      SliceEntityAttributeSchema.name a = "operation") ∧
    mergeAttributes (Value.obj [("operation", Value.str "xyz"), ("a", Value.int 0)]) none
        "create" DictPath.nullPath (.mk "E" [] [] [] [⟨"operation"⟩, ⟨"a"⟩] []) =
      .ok (Value.obj [("operation", Value.str "create"), ("path", Value.str "."),
        ("a", Value.int 0)]) ∧
    dictGet [("operation", Value.str "create"), ("path", Value.str "."),
        ("a", Value.int 0)] "operation" ≠
      some ((dictGet [("operation", Value.str "xyz"), ("a", Value.int 0)]
        "operation").getD Value.null) := by
  refine ⟨?_, ?_, by decide⟩
  · simp [SliceEntitySchema.allAttributes, allAttributesOfBases, dictUpdate, dictSet,
      SliceEntitySchema.attributes, SliceEntitySchema.baseEntities,
      SliceEntityAttributeSchema.name]
  · simp [mergeAttributes, SliceEntitySchema.allAttributes, SliceEntitySchema.allRelations,
      allAttributesOfBases, allRelationsOfBases, dictUpdate, dictSet, copyAttributes,
      mergeRelations, Value.pyGet, dictGet, DictPath.render, Except.bind, bind, pure,
      Except.pure, SliceEntitySchema.attributes, SliceEntitySchema.embeddedEntities,
      SliceEntitySchema.baseEntities, SliceEntityAttributeSchema.name]

/-- C7 (amended): `merge_attributes` never alters a scalar attribute's
current value, for every attribute name listed by `all_attributes()` other
than the synthetic names `operation` and `path` (which the engine skips and
sets to the merge's own operation tag and rendered path) and not shadowed by
a relation of the same name: the merged value for that name equals current's
value, or `None` when the name is absent in current; only relation sub-trees
are re-inserted from the previous tree. -/
theorem C7_merge_purity_amended
    (current : Value) (previous : Option Value) (operation : String) (path : DictPath)
    (schema : SliceEntitySchema) (m : Value) (n : String)
    (hm : mergeAttributes current previous operation path schema = .ok m)
    (hattr : ∃ a ∈ schema.allAttributes, SliceEntityAttributeSchema.name a = n)
    (hop : n ≠ "operation") (hpath : n ≠ "path")
    (hnotrel : ∀ r ∈ schema.allRelations, SliceEntityRelationSchema.name r ≠ n) :
    ∃ fields cf, m = Value.obj fields ∧ current = Value.obj cf ∧
      dictGet fields n = some ((dictGet cf n).getD Value.null) := by
  rcases mergeAttributes_ok_iff.mp hm with ⟨withAttrs, fields, hca, hmr, rfl⟩
  rcases copyAttributes_hit hop hpath schema.allAttributes _ withAttrs hattr hca with
    ⟨cf, rfl, hlook⟩
  have hfr := mergeRelations_frame (Value.obj cf) previous operation path n
    schema.allRelations withAttrs (schemaSize schema) (relBound schema) fields hnotrel hmr
  exact ⟨fields, cf, rfl, rfl, by rw [hfr, hlook]⟩

/-- C7 witness: a plain scalar attribute is copied from current verbatim. -/
theorem C7_merge_purity_amended_witness :
    ∃ fields cf,
      Value.obj [("operation", Value.str "create"), ("path", Value.str "."),
          ("a", Value.int 5)] = Value.obj fields ∧
      Value.obj [("a", Value.int 5)] = Value.obj cf ∧
      dictGet fields "a" = some ((dictGet cf "a").getD Value.null) := by
  have hm : mergeAttributes (Value.obj [("a", Value.int 5)]) none "create"
      DictPath.nullPath (SliceEntitySchema.mk "E" [] [] [] [⟨"a"⟩] []) =
      .ok (Value.obj [("operation", Value.str "create"), ("path", Value.str "."),
        ("a", Value.int 5)]) := by
    simp [mergeAttributes, SliceEntitySchema.allAttributes, SliceEntitySchema.allRelations,
      allAttributesOfBases, allRelationsOfBases, dictUpdate, dictSet, copyAttributes,
      mergeRelations, Value.pyGet, dictGet, DictPath.render, Except.bind, bind, pure,
      Except.pure, SliceEntitySchema.attributes, SliceEntitySchema.embeddedEntities,
      SliceEntitySchema.baseEntities, SliceEntityAttributeSchema.name]
  exact C7_merge_purity_amended (Value.obj [("a", Value.int 5)]) none "create"
    DictPath.nullPath (SliceEntitySchema.mk "E" [] [] [] [⟨"a"⟩] [])
    (Value.obj [("operation", Value.str "create"), ("path", Value.str "."),
      ("a", Value.int 5)]) "a" hm
    (by simp [SliceEntitySchema.allAttributes, allAttributesOfBases, dictUpdate, dictSet,
      SliceEntitySchema.attributes, SliceEntitySchema.baseEntities,
      SliceEntityAttributeSchema.name])
    (by decide) (by decide)
    (by simp [SliceEntitySchema.allRelations, allRelationsOfBases, dictUpdate, dictSet,
      SliceEntitySchema.embeddedEntities, SliceEntitySchema.baseEntities])

/-- Effectful map over a list with Except, used to state the collection
merge as one member per key. -/
def mapExcept {α β : Type} (f : α → Except MergeError β) : List α → Except MergeError (List β)
  | [] => .ok []
  | x :: xs => do
      let y ← f x
      let ys ← mapExcept f xs
      pure (y :: ys)

theorem mergeCollection_eq_mapExcept (o : String) (path : DictPath)
    (r : SliceEntityRelationSchema) (cIdx pIdx : List (KeyTuple × Value)) :
    ∀ ks : List KeyTuple,
      mergeCollection o path r cIdx pIdx ks =
        mapExcept (fun k => mergeMember o path r (denullOpt (dictGet cIdx k))
          (denullOpt (dictGet pIdx k)) k) ks := by
  intro ks
  induction ks with
  | nil =>
      rw [mergeCollection, mapExcept]
  | cons k rest ih =>
      rw [mergeCollection, mapExcept, ih]

theorem mapExcept_ok_length {α β : Type} {f : α → Except MergeError β} :
    ∀ {xs : List α} {ys : List β}, mapExcept f xs = .ok ys → ys.length = xs.length := by
  intro xs
  induction xs with
  | nil =>
      intro ys h
      rw [mapExcept] at h
      cases h
      rfl
  | cons x rest ih =>
      intro ys h
      rw [mapExcept] at h
      rcases except_bind_ok.mp h with ⟨y, _, h2⟩
      rcases except_bind_ok.mp h2 with ⟨ys', hys', h3⟩
      simp only [pure, Except.pure, Except.ok.injEq] at h3
      rw [← h3]
      simp [ih hys']

theorem buildIndex_keys_nodup {keys : List String} :
    ∀ (vs : List Value) (acc out : List (KeyTuple × Value)),
      (acc.map Prod.fst).Nodup → buildIndex keys acc vs = .ok out →
      (out.map Prod.fst).Nodup := by
  intro vs
  induction vs with
  | nil =>
      intro acc out hacc hok
      rw [buildIndex] at hok
      cases hok
      exact hacc
  | cons v rest ih =>
      intro acc out hacc hok
      rw [buildIndex] at hok
      rcases except_bind_ok.mp hok with ⟨k, _, h2⟩
      exact ih (dictSet acc k v) out (nodup_map_fst_dictSet hacc) h2

theorem unionKeys_nodup {a b : List KeyTuple} (ha : a.Nodup) (hb : b.Nodup) :
    (unionKeys a b).Nodup := by
  unfold unionKeys
  rw [List.nodup_append]
  refine ⟨ha, hb.filter _, ?_⟩
  intro x hxa hxb
  rcases List.mem_filter.mp hxb with ⟨_, hdec⟩
  have hnot : x ∉ a := by simpa using hdec
  exact hnot hxa

theorem mem_unionKeys {a b : List KeyTuple} {k : KeyTuple} :
    k ∈ unionKeys a b ↔ (k ∈ a ∨ k ∈ b) := by
  unfold unionKeys
  rw [List.mem_append]
  constructor
  · rintro (h | h)
    · exact Or.inl h
    · exact Or.inr (List.mem_filter.mp h).1
  · rintro (h | h)
    · exact Or.inl h
    · by_cases hin : k ∈ a
      · exact Or.inl hin
      · exact Or.inr (List.mem_filter.mpr ⟨h, by simpa using hin⟩)

/-- C2: for every `merge_attributes` call that succeeds and every collection
relation `r` of the schema (cardinality neither (1,1) nor (0,1)): current
and previous members of `r` are each indexed by the stringified tuple of the
child schema's declared key attributes (`buildIndex`/`memberKey`); the
merged collection holds exactly one member per key in the union of the two
index key sets (`unionKeys`, with no duplicate keys), the member for each
key being `mergeMember`: a key present only in previous contributes its
previous sub-tree unchanged (after the engine asserts its `operation` is
`delete`), and a key present in current contributes the recursive merge
with the structural path extended by a keyed-list locator
(`DictPath.keyedList`, relation name plus key tuple), never a positional
index, so member identity is determined entirely by the key attributes and
not by position. -/
theorem C2_collection_relation_keyed_merge
    (current : Value) (previous : Option Value) (operation : String)
    (path : DictPath) (schema : SliceEntitySchema) (r : SliceEntityRelationSchema)
    (m : Value)
    (hr : r ∈ schema.allRelations)
    (hc1 : (r.cardinalityMin, r.cardinalityMax) ≠ ((1 : Nat), some (1 : Nat)))
    (hc2 : (r.cardinalityMin, r.cardinalityMax) ≠ ((0 : Nat), some (1 : Nat)))
    (hm : mergeAttributes current previous operation path schema = .ok m) :
    ∃ fields cl cvs pvs cIdx pIdx ms,
      m = Value.obj fields ∧
      current.getItem r.name = .ok cl ∧
      cl.asList = .ok cvs ∧
      prevList previous r.name = .ok pvs ∧
      buildIndex r.entity.keys [] cvs = .ok cIdx ∧
      buildIndex r.entity.keys [] pvs = .ok pIdx ∧
      dictGet fields r.name = some (Value.list ms) ∧
      (unionKeys (cIdx.map Prod.fst) (pIdx.map Prod.fst)).Nodup ∧
      (∀ k, k ∈ unionKeys (cIdx.map Prod.fst) (pIdx.map Prod.fst) ↔
        (k ∈ cIdx.map Prod.fst ∨ k ∈ pIdx.map Prod.fst)) ∧
      ms.length = (unionKeys (cIdx.map Prod.fst) (pIdx.map Prod.fst)).length ∧
      mapExcept (fun k => mergeMember operation path r (denullOpt (dictGet cIdx k))
          (denullOpt (dictGet pIdx k)) k)
        (unionKeys (cIdx.map Prod.fst) (pIdx.map Prod.fst)) = .ok ms := by
  rcases mergeAttributes_ok_iff.mp hm with ⟨withAttrs, fields, _, hmr, rfl⟩
  obtain ⟨v, hv, hlook⟩ := mergeRelations_hit current previous operation path r
    schema.allRelations withAttrs (schemaSize schema) (relBound schema) fields
    (allRelations_names_nodup schema) hr hmr
  rw [mergeRelationValue] at hv
  rw [if_neg hc1, if_neg hc2] at hv
  rcases except_bind_ok.mp hv with ⟨cl, hcl, hv2⟩
  rcases except_bind_ok.mp hv2 with ⟨cvs, hcvs, hv3⟩
  rcases except_bind_ok.mp hv3 with ⟨pvs, hpvs, hv4⟩
  rcases except_bind_ok.mp hv4 with ⟨cIdx, hcIdx, hv5⟩
  rcases except_bind_ok.mp hv5 with ⟨pIdx, hpIdx, hv6⟩
  rcases except_bind_ok.mp hv6 with ⟨ms, hms, hv7⟩
  simp only [pure, Except.pure, Except.ok.injEq] at hv7
  have hcnd := buildIndex_keys_nodup cvs [] cIdx (by simp) hcIdx
  have hpnd := buildIndex_keys_nodup pvs [] pIdx (by simp) hpIdx
  refine ⟨fields, cl, cvs, pvs, cIdx, pIdx, ms, rfl, hcl, hcvs, hpvs, hcIdx, hpIdx,
    ?_, unionKeys_nodup hcnd hpnd, fun k => mem_unionKeys, ?_, ?_⟩
  · rw [hlook, ← hv7]
  · rw [mergeCollection_eq_mapExcept] at hms
    exact mapExcept_ok_length hms
  · rw [← mergeCollection_eq_mapExcept]
    exact hms

/-- C2 witness: one member only in current (key `[("id","a")]`, merged
recursively under a keyed-list locator) and one member only in previous
(key `[("id","b")]`, reused verbatim). -/
theorem C2_collection_relation_keyed_merge_witness :
    ∃ fields cl cvs pvs cIdx pIdx ms,
      Value.obj [("operation", Value.str "update"), ("path", Value.str "."),
        ("items", Value.list [
          Value.obj [("operation", Value.str "create"), ("path", Value.str "items[id=a]"),
            ("id", Value.str "a"), ("v", Value.int 1)],
          Value.obj [("id", Value.str "b"), ("operation", Value.str "delete"),
            ("v", Value.int 9)]])] = Value.obj fields ∧
      Value.getItem (Value.obj [("items", Value.list [Value.obj [("id", Value.str "a"),
        ("v", Value.int 1)]])]) "items" = .ok cl ∧
      cl.asList = .ok cvs ∧
      prevList (some (Value.obj [("items", Value.list [Value.obj [("id", Value.str "b"),
        ("operation", Value.str "delete"), ("v", Value.int 9)]])])) "items" = .ok pvs ∧
      buildIndex ["id"] [] cvs = .ok cIdx ∧
      buildIndex ["id"] [] pvs = .ok pIdx ∧
      dictGet fields "items" = some (Value.list ms) ∧
      (unionKeys (cIdx.map Prod.fst) (pIdx.map Prod.fst)).Nodup ∧
      (∀ k, k ∈ unionKeys (cIdx.map Prod.fst) (pIdx.map Prod.fst) ↔
        (k ∈ cIdx.map Prod.fst ∨ k ∈ pIdx.map Prod.fst)) ∧
      ms.length = (unionKeys (cIdx.map Prod.fst) (pIdx.map Prod.fst)).length ∧
      mapExcept (fun k => mergeMember "update" DictPath.nullPath
          (.mk "items" (.mk "I" ["id"] [] [] [⟨"id"⟩, ⟨"v"⟩] []) 0 none)
          (denullOpt (dictGet cIdx k)) (denullOpt (dictGet pIdx k)) k)
        (unionKeys (cIdx.map Prod.fst) (pIdx.map Prod.fst)) = .ok ms := by
  have hr : SliceEntityRelationSchema.mk "items"
      (.mk "I" ["id"] [] [] [⟨"id"⟩, ⟨"v"⟩] []) 0 none ∈
      (SliceEntitySchema.mk "P" [] [] [] []
        [.mk "items" (.mk "I" ["id"] [] [] [⟨"id"⟩, ⟨"v"⟩] []) 0 none]).allRelations := by
    simp [SliceEntitySchema.allRelations, allRelationsOfBases, dictUpdate, dictSet,
      SliceEntityRelationSchema.name]
  have hm : mergeAttributes
      (Value.obj [("items", Value.list [Value.obj [("id", Value.str "a"),
        ("v", Value.int 1)]])])
      (some (Value.obj [("items", Value.list [Value.obj [("id", Value.str "b"),
        ("operation", Value.str "delete"), ("v", Value.int 9)]])]))
      "update" DictPath.nullPath
      (SliceEntitySchema.mk "P" [] [] [] []
        [.mk "items" (.mk "I" ["id"] [] [] [⟨"id"⟩, ⟨"v"⟩] []) 0 none]) =
      .ok (Value.obj [("operation", Value.str "update"), ("path", Value.str "."),
        ("items", Value.list [
          Value.obj [("operation", Value.str "create"), ("path", Value.str "items[id=a]"),
            ("id", Value.str "a"), ("v", Value.int 1)],
          Value.obj [("id", Value.str "b"), ("operation", Value.str "delete"),
            ("v", Value.int 9)]])]) := by
    simp [mergeAttributes, SliceEntitySchema.allAttributes, SliceEntitySchema.allRelations,
      allAttributesOfBases, allRelationsOfBases, dictUpdate, dictSet, copyAttributes,
      mergeRelations, mergeRelationValue, mergeCollection, mergeMember, memberKey,
      buildIndex, unionKeys, prevGetOpt, prevGetItem, prevList, Value.pyGet, Value.pyGetOpt,
      Value.getItem, Value.asList, denull, denullOpt, dictGet, DictPath.render,
      renderKeySelector, pyStr, pyRepr, relationChildOperation, Except.bind, bind, pure,
      Except.pure, SliceEntityRelationSchema.cardinalityMin,
      SliceEntityRelationSchema.cardinalityMax, SliceEntityRelationSchema.name,
      SliceEntityRelationSchema.entity, SliceEntitySchema.attributes,
      SliceEntitySchema.embeddedEntities, SliceEntitySchema.baseEntities,
      SliceEntitySchema.keys, SliceEntityAttributeSchema.name, String.join]
  have h := C2_collection_relation_keyed_merge
    (Value.obj [("items", Value.list [Value.obj [("id", Value.str "a"),
      ("v", Value.int 1)]])])
    (some (Value.obj [("items", Value.list [Value.obj [("id", Value.str "b"),
      ("operation", Value.str "delete"), ("v", Value.int 9)]])]))
    "update" DictPath.nullPath
    (SliceEntitySchema.mk "P" [] [] [] []
      [.mk "items" (.mk "I" ["id"] [] [] [⟨"id"⟩, ⟨"v"⟩] []) 0 none])
    (SliceEntityRelationSchema.mk "items" (.mk "I" ["id"] [] [] [⟨"id"⟩, ⟨"v"⟩] []) 0 none)
    (Value.obj [("operation", Value.str "update"), ("path", Value.str "."),
      ("items", Value.list [
        Value.obj [("operation", Value.str "create"), ("path", Value.str "items[id=a]"),
          ("id", Value.str "a"), ("v", Value.int 1)],
        Value.obj [("id", Value.str "b"), ("operation", Value.str "delete"),
          ("v", Value.int 9)]])])
    hr (by decide) (by decide) hm
  simpa [SliceEntityRelationSchema.name, SliceEntityRelationSchema.entity,
    SliceEntitySchema.keys] using h

/-- Maximal version among a list of active files (0 for the empty list,
matching the synthetic version-0 slice of `get_latest_slice`). -/
def maxVersion (files : List ActiveFile) : Nat :=
  files.foldl (fun m f => max m f.version) 0

theorem foldl_max_version (l : List ActiveFile) :
    ∀ a : Nat, l.foldl (fun m f => max m f.version) a = max a (maxVersion l) := by
  induction l with
  | nil =>
      intro a
      simp [maxVersion]
  | cons f fs ih =>
      intro a
      simp only [List.foldl_cons, maxVersion] at *
      rw [ih (max a f.version), ih (max 0 f.version)]
      omega

theorem maxVersion_cons (f : ActiveFile) (fs : List ActiveFile) :
    maxVersion (f :: fs) = max f.version (maxVersion fs) := by
  have h1 : maxVersion (f :: fs) =
      List.foldl (fun m g => max m g.version) (max 0 f.version) fs := rfl
  rw [h1, foldl_max_version, Nat.zero_max]

theorem version_le_maxVersion {g : ActiveFile} {files : List ActiveFile} (h : g ∈ files) :
    g.version ≤ maxVersion files := by
  induction files with
  | nil => cases h
  | cons f fs ih =>
      rw [maxVersion_cons]
      rcases List.mem_cons.mp h with rfl | h'
      · omega
      · have := ih h'
        omega

theorem latestActiveFile_version (f : ActiveFile) (fs : List ActiveFile) :
    (latestActiveFile f fs).version = maxVersion (f :: fs) := by
  rw [maxVersion_cons]
  induction fs generalizing f with
  | nil =>
      simp [latestActiveFile, maxVersion]
  | cons g gs ih =>
      rw [maxVersion_cons]
      simp only [latestActiveFile, List.foldl_cons]
      by_cases h : f.version < g.version
      · rw [if_pos h]
        have hg : List.foldl (fun best g => if best.version < g.version then g else best) g gs
            = latestActiveFile g gs := rfl
        rw [hg, ih g]
        omega
      · rw [if_neg h]
        have hf : List.foldl (fun best g => if best.version < g.version then g else best) f gs
            = latestActiveFile f gs := rfl
        rw [hf, ih f]
        omega

theorem latestActiveFile_mem (f : ActiveFile) (fs : List ActiveFile) :
    latestActiveFile f fs ∈ f :: fs := by
  induction fs generalizing f with
  | nil => simp [latestActiveFile]
  | cons g gs ih =>
      simp only [latestActiveFile, List.foldl_cons]
      by_cases h : f.version < g.version
      · rw [if_pos h]
        have := ih g
        simp only [latestActiveFile] at this
        rcases List.mem_cons.mp this with h' | h'
        · simp [h']
        · simp [h']
      · rw [if_neg h]
        have := ih f
        simp only [latestActiveFile] at this
        rcases List.mem_cons.mp this with h' | h'
        · simp [h']
        · simp [h']

theorem getLatestSlice_version (cfg : StoreConfig) (st : DiskState) (n : String) :
    (getLatestSlice cfg st n).version = maxVersion (activeFilesFor st n) := by
  unfold getLatestSlice
  cases h : activeFilesFor st n with
  | nil => simp [maxVersion]
  | cons f fs =>
      simp only [emitSlice]
      exact latestActiveFile_version f fs

theorem getLatestSlice_eq_of {cfg : StoreConfig} {st : DiskState} {n : String}
    {b : ActiveFile} (hmem : b ∈ activeFilesFor st n)
    (hdom : ∀ g ∈ activeFilesFor st n, g.version ≤ b.version)
    (hnd : ((activeFilesFor st n).map ActiveFile.version).Nodup) :
    getLatestSlice cfg st n = emitSlice cfg n b.version b.content := by
  unfold getLatestSlice
  cases h : activeFilesFor st n with
  | nil =>
      rw [h] at hmem
      cases hmem
  | cons f fs =>
      rw [h] at hmem hdom hnd
      have hLmem : latestActiveFile f fs ∈ f :: fs := latestActiveFile_mem f fs
      have hLver : (latestActiveFile f fs).version = maxVersion (f :: fs) :=
        latestActiveFile_version f fs
      have hbver : b.version = (latestActiveFile f fs).version := by
        have h1 : b.version ≤ maxVersion (f :: fs) := version_le_maxVersion hmem
        have h2 : (latestActiveFile f fs).version ≤ b.version := hdom _ hLmem
        omega
      have heq : latestActiveFile f fs = b :=
        List.inj_on_of_nodup_map hnd hLmem hmem hbver.symm
      show emitSlice cfg n (latestActiveFile f fs).version (latestActiveFile f fs).content =
        emitSlice cfg n b.version b.content
      rw [heq]

theorem mem_upsertActive {files : List ActiveFile} {f g : ActiveFile}
    (h : g ∈ upsertActive files f) : g ∈ files ∨ g = f := by
  induction files with
  | nil =>
      rw [upsertActive] at h
      rcases List.mem_cons.mp h with rfl | h'
      · right; rfl
      · cases h'
  | cons e rest ih =>
      rw [upsertActive] at h
      by_cases hk : e.name = f.name ∧ e.version = f.version
      · rw [if_pos hk] at h
        rcases List.mem_cons.mp h with rfl | h'
        · right; rfl
        · left; simp [h']
      · rw [if_neg hk] at h
        rcases List.mem_cons.mp h with rfl | h'
        · left; simp
        · rcases ih h' with h2 | h2
          · left; simp [h2]
          · right; exact h2

theorem mem_upsertActive_self (files : List ActiveFile) (f : ActiveFile) :
    f ∈ upsertActive files f := by
  induction files with
  | nil => simp [upsertActive]
  | cons e rest ih =>
      rw [upsertActive]
      by_cases hk : e.name = f.name ∧ e.version = f.version
      · rw [if_pos hk]; simp
      · rw [if_neg hk]; simp [ih]

theorem maxVersion_upsertActive (files : List ActiveFile) (f : ActiveFile) :
    maxVersion (upsertActive files f) = max (maxVersion files) f.version := by
  induction files with
  | nil =>
      rw [upsertActive]
      rw [maxVersion_cons]
      simp [maxVersion]
  | cons e rest ih =>
      rw [upsertActive]
      by_cases hk : e.name = f.name ∧ e.version = f.version
      · rw [if_pos hk]
        rw [maxVersion_cons, maxVersion_cons, hk.2]
        omega
      · rw [if_neg hk]
        rw [maxVersion_cons, maxVersion_cons, ih]
        omega

theorem filterName_cons_hit {e : ActiveFile} {rest : List ActiveFile} {n : String}
    (h : e.name = n) : filterName (e :: rest) n = e :: filterName rest n := by
  simp [filterName, h]

theorem filterName_cons_miss {e : ActiveFile} {rest : List ActiveFile} {n : String}
    (h : ¬e.name = n) : filterName (e :: rest) n = filterName rest n := by
  simp [filterName, h]

theorem filterName_upsertActive_same {files : List ActiveFile} {f : ActiveFile} {n : String}
    (h : f.name = n) :
    filterName (upsertActive files f) n = upsertActive (filterName files n) f := by
  induction files with
  | nil => simp [upsertActive, filterName, h]
  | cons e rest ih =>
      rw [upsertActive]
      by_cases hk : e.name = f.name ∧ e.version = f.version
      · rw [if_pos hk]
        have he : e.name = n := hk.1.trans h
        rw [filterName_cons_hit h, filterName_cons_hit he, upsertActive, if_pos hk]
      · rw [if_neg hk]
        by_cases he : e.name = n
        · rw [filterName_cons_hit he, filterName_cons_hit he, ih, upsertActive, if_neg hk]
        · rw [filterName_cons_miss he, filterName_cons_miss he, ih]

theorem filterName_upsertActive_other {files : List ActiveFile} {f : ActiveFile} {n : String}
    (h : f.name ≠ n) :
    filterName (upsertActive files f) n = filterName files n := by
  induction files with
  | nil => simp [upsertActive, filterName, h]
  | cons e rest ih =>
      rw [upsertActive]
      by_cases hk : e.name = f.name ∧ e.version = f.version
      · rw [if_pos hk]
        have he : ¬e.name = n := by rw [hk.1]; exact h
        rw [filterName_cons_miss h, filterName_cons_miss he]
      · rw [if_neg hk]
        by_cases he : e.name = n
        · rw [filterName_cons_hit he, filterName_cons_hit he, ih]
        · rw [filterName_cons_miss he, filterName_cons_miss he, ih]

theorem mem_filterName {files : List ActiveFile} {n : String} {g : ActiveFile} :
    g ∈ filterName files n ↔ (g ∈ files ∧ g.name = n) := by
  unfold filterName
  rw [List.mem_filter]
  simp

theorem dedupKeepFirst_nodup (l : List String) : (dedupKeepFirst l).Nodup := by
  induction l with
  | nil => simp [dedupKeepFirst]
  | cons x xs ih =>
      rw [dedupKeepFirst]
      rw [List.nodup_cons]
      constructor
      · intro hmem
        rcases List.mem_filter.mp hmem with ⟨_, hdec⟩
        simp at hdec
      · exact ih.filter _

theorem getLatestSlice_name (cfg : StoreConfig) (st : DiskState) (n : String) :
    (getLatestSlice cfg st n).name = n := by
  unfold getLatestSlice
  cases activeFilesFor st n with
  | nil => rfl
  | cons f fs => rfl

theorem sourceSliceFor_empty {cfg : StoreConfig} {st : DiskState} {f : SourceFile}
    (h : activeFilesFor st f.name = []) :
    sourceSliceFor cfg st f = emitSlice cfg f.name 1 f.content := by
  unfold sourceSliceFor
  rw [h]

theorem sourceSliceFor_reuse {cfg : StoreConfig} {st : DiskState} {f : SourceFile}
    (hne : activeFilesFor st f.name ≠ [])
    (h : f.content = (getLatestSlice cfg st f.name).attributes) :
    sourceSliceFor cfg st f = getLatestSlice cfg st f.name := by
  unfold sourceSliceFor
  cases hc : activeFilesFor st f.name with
  | nil => exact absurd hc hne
  | cons a as =>
      show (if f.content = (getLatestSlice cfg st f.name).attributes
        then getLatestSlice cfg st f.name
        else emitSlice cfg f.name ((getLatestSlice cfg st f.name).version + 1) f.content) = _
      rw [if_pos h]

theorem sourceSliceFor_bump {cfg : StoreConfig} {st : DiskState} {f : SourceFile}
    (hne : activeFilesFor st f.name ≠ [])
    (h : ¬f.content = (getLatestSlice cfg st f.name).attributes) :
    sourceSliceFor cfg st f =
      emitSlice cfg f.name ((getLatestSlice cfg st f.name).version + 1) f.content := by
  unfold sourceSliceFor
  cases hc : activeFilesFor st f.name with
  | nil => exact absurd hc hne
  | cons a as =>
      show (if f.content = (getLatestSlice cfg st f.name).attributes
        then getLatestSlice cfg st f.name
        else emitSlice cfg f.name ((getLatestSlice cfg st f.name).version + 1) f.content) = _
      rw [if_neg h]

theorem deletionRecord_of_deleted {cfg : StoreConfig} {st : DiskState} {n : String}
    (hd : (getLatestSlice cfg st n).deleted = true) :
    deletionRecord cfg st n = getLatestSlice cfg st n := by
  unfold deletionRecord
  rw [if_pos hd]

theorem deletionRecord_tombstone {cfg : StoreConfig} {st : DiskState} {n : String}
    (hd : ¬(getLatestSlice cfg st n).deleted = true) :
    deletionRecord cfg st n =
      { name := n
        storeName := cfg.storeName
        version := (getLatestSlice cfg st n).version + 1
        attributes := Value.obj []
        deleted := true } := by
  unfold deletionRecord
  rw [if_neg hd]

theorem sourceSliceFor_name (cfg : StoreConfig) (st : DiskState) (f : SourceFile) :
    (sourceSliceFor cfg st f).name = f.name := by
  by_cases hc : activeFilesFor st f.name = []
  · rw [sourceSliceFor_empty hc]
    rfl
  · by_cases h : f.content = (getLatestSlice cfg st f.name).attributes
    · rw [sourceSliceFor_reuse hc h]
      exact getLatestSlice_name cfg st f.name
    · rw [sourceSliceFor_bump hc h]
      rfl

theorem deletionRecord_name (cfg : StoreConfig) (st : DiskState) (n : String) :
    (deletionRecord cfg st n).name = n := by
  by_cases h : (getLatestSlice cfg st n).deleted = true
  · rw [deletionRecord_of_deleted h]
    exact getLatestSlice_name cfg st n
  · rw [deletionRecord_tombstone h]

theorem loadSourceSlices_entry_name (cfg : StoreConfig) (st : DiskState) :
    ∀ x ∈ loadSourceSlices cfg st, Slice.name x.2 = x.1 := by
  intro x hx
  unfold loadSourceSlices at hx
  rcases List.mem_append.mp hx with h | h
  · rcases List.mem_map.mp h with ⟨f, _, rfl⟩
    exact sourceSliceFor_name cfg st f
  · rcases List.mem_map.mp h with ⟨m, _, rfl⟩
    exact deletionRecord_name cfg st m

theorem loadSourceSlices_keys_nodup (cfg : StoreConfig) (st : DiskState)
    (hwf : (st.sourceFiles.map SourceFile.name).Nodup) :
    ((loadSourceSlices cfg st).map Prod.fst).Nodup := by
  have hmap1 : ∀ l : List SourceFile,
      (l.map (fun f => (f.name, sourceSliceFor cfg st f))).map Prod.fst =
        l.map SourceFile.name := by
    intro l
    induction l with
    | nil => rfl
    | cons a as ih => simp [ih]
  have hmap2 : ∀ l : List String,
      (l.map (fun n => (n, deletionRecord cfg st n))).map Prod.fst = l := by
    intro l
    induction l with
    | nil => rfl
    | cons a as ih => simp [ih]
  unfold loadSourceSlices
  rw [List.map_append, hmap1, hmap2, List.nodup_append]
  refine ⟨hwf, (dedupKeepFirst_nodup _).filter _, ?_⟩
  intro n hn hn2
  rcases List.mem_filter.mp hn2 with ⟨_, hdec⟩
  have hnot : n ∉ st.sourceFiles.map SourceFile.name := by simpa using hdec
  exact hnot hn

theorem getLatestSlice_version_eq (cfg : StoreConfig) (st : DiskState) (n : String) :
    (getLatestSlice cfg st n).version = maxVersion (activeFilesFor st n) :=
  getLatestSlice_version cfg st n

theorem loadSourceSlices_version_ge (cfg : StoreConfig) (st : DiskState) :
    ∀ x ∈ loadSourceSlices cfg st,
      maxVersion (activeFilesFor st x.1) ≤ Slice.version x.2 := by
  intro x hx
  unfold loadSourceSlices at hx
  rcases List.mem_append.mp hx with h | h
  · rcases List.mem_map.mp h with ⟨f, _, rfl⟩
    simp only
    by_cases hc : activeFilesFor st f.name = []
    · rw [sourceSliceFor_empty hc, hc]
      exact Nat.zero_le _
    · by_cases hcmp : f.content = (getLatestSlice cfg st f.name).attributes
      · rw [sourceSliceFor_reuse hc hcmp, getLatestSlice_version_eq]
      · rw [sourceSliceFor_bump hc hcmp]
        have := getLatestSlice_version_eq cfg st f.name
        show maxVersion (activeFilesFor st f.name) ≤ (getLatestSlice cfg st f.name).version + 1
        omega
  · rcases List.mem_map.mp h with ⟨m, _, rfl⟩
    simp only
    by_cases hd : (getLatestSlice cfg st m).deleted = true
    · rw [deletionRecord_of_deleted hd, getLatestSlice_version_eq]
    · rw [deletionRecord_tombstone hd]
      have := getLatestSlice_version_eq cfg st m
      show maxVersion (activeFilesFor st m) ≤ (getLatestSlice cfg st m).version + 1
      omega

theorem emitSlice_canonical (cfg : StoreConfig) (n : String) (v : Nat) (c : Value) :
    (emitSlice cfg n v c).attributes = Value.obj [] ∨
      ∃ y, (emitSlice cfg n v c).attributes = cfg.validate y := by
  unfold emitSlice
  by_cases hc : c = Value.obj []
  · left
    simp [hc]
  · right
    exact ⟨c, by simp [hc]⟩

theorem getLatestSlice_canonical (cfg : StoreConfig) (st : DiskState) (n : String) :
    (getLatestSlice cfg st n).attributes = Value.obj [] ∨
      ∃ y, (getLatestSlice cfg st n).attributes = cfg.validate y := by
  unfold getLatestSlice
  cases activeFilesFor st n with
  | nil => left; rfl
  | cons f fs => exact emitSlice_canonical cfg n _ _

theorem loadSourceSlices_canonical (cfg : StoreConfig) (st : DiskState) :
    ∀ x ∈ loadSourceSlices cfg st,
      Slice.attributes x.2 = Value.obj [] ∨
        ∃ y, Slice.attributes x.2 = cfg.validate y := by
  intro x hx
  unfold loadSourceSlices at hx
  rcases List.mem_append.mp hx with h | h
  · rcases List.mem_map.mp h with ⟨f, _, rfl⟩
    simp only
    by_cases hc : activeFilesFor st f.name = []
    · rw [sourceSliceFor_empty hc]
      exact emitSlice_canonical cfg f.name 1 f.content
    · by_cases hcmp : f.content = (getLatestSlice cfg st f.name).attributes
      · rw [sourceSliceFor_reuse hc hcmp]
        exact getLatestSlice_canonical cfg st f.name
      · rw [sourceSliceFor_bump hc hcmp]
        exact emitSlice_canonical cfg f.name _ f.content
  · rcases List.mem_map.mp h with ⟨m, _, rfl⟩
    simp only
    by_cases hd : (getLatestSlice cfg st m).deleted = true
    · rw [deletionRecord_of_deleted hd]
      exact getLatestSlice_canonical cfg st m
    · rw [deletionRecord_tombstone hd]
      left
      rfl

theorem emitSlice_attributes_of_canonical (cfg : StoreConfig) (n : String) (v : Nat)
    {c : Value} (hidem : ∀ w, cfg.validate (cfg.validate w) = cfg.validate w)
    (hcan : c = Value.obj [] ∨ ∃ y, c = cfg.validate y) :
    (emitSlice cfg n v c).attributes = c := by
  show (if decide (c = Value.obj []) = true then c else cfg.validate c) = c
  by_cases hc : c = Value.obj []
  · rw [if_pos (by simpa using hc)]
  · rw [if_neg (by simpa using hc)]
    rcases hcan with h | ⟨y, hy⟩
    · exact absurd h hc
    · rw [hy, hidem]

theorem promoteSlices_filterName_other {n : String} :
    ∀ (slices : List (String × Slice)) (files : List ActiveFile),
      (∀ x ∈ slices, Slice.name x.2 ≠ n) →
      filterName (promoteSlices files slices) n = filterName files n := by
  intro slices
  induction slices with
  | nil =>
      intro files _
      rw [promoteSlices]
  | cons e rest ih =>
      intro files hn
      obtain ⟨k, s0⟩ := e
      rw [promoteSlices]
      rw [ih _ (fun x hx => hn x (by simp [hx]))]
      exact filterName_upsertActive_other (hn (k, s0) (by simp))

theorem promoteSlices_filterName_hit {n : String} {s : Slice} :
    ∀ (slices : List (String × Slice)) (files : List ActiveFile),
      ((slices.map Prod.fst).Nodup) →
      (∀ x ∈ slices, Slice.name x.2 = x.1) →
      (n, s) ∈ slices →
      filterName (promoteSlices files slices) n =
        upsertActive (filterName files n) ⟨s.name, s.version, s.attributes⟩ := by
  intro slices
  induction slices with
  | nil =>
      intro files _ _ hmem
      cases hmem
  | cons e rest ih =>
      intro files hnd hnames hmem
      obtain ⟨k0, s0⟩ := e
      rw [promoteSlices]
      have hnd' : (∀ x : Slice, (k0, x) ∉ rest) ∧ (List.map Prod.fst rest).Nodup := by
        simpa using hnd
      rcases List.mem_cons.mp hmem with he | hrest
      · have hk : n = k0 := congrArg Prod.fst he
        have hs : s = s0 := by
          have := congrArg Prod.snd he
          simpa using this
        subst hs
        subst hk
        have hname0 : Slice.name s = n := hnames (n, s) (by simp)
        have hrestnames : ∀ x ∈ rest, Slice.name x.2 ≠ n := by
          intro x hx he2
          have hx1 : x.1 = n := by
            rw [← hnames x (List.mem_cons_of_mem _ hx), he2]
          apply hnd'.1 x.2
          have hxe : x = (n, x.2) := by
            rw [← hx1]
          rw [← hxe]
          exact hx
        rw [promoteSlices_filterName_other rest _ hrestnames]
        exact filterName_upsertActive_same
          (show (ActiveFile.mk s.name s.version s.attributes).name = n from hname0)
      · have hk0n : k0 ≠ n := by
          intro he2
          subst he2
          exact hnd'.1 s hrest
        have hs0 : Slice.name s0 ≠ n := by
          rw [hnames (k0, s0) (by simp)]
          exact hk0n
        rw [ih _ hnd'.2 (fun x hx => hnames x (by simp [hx])) hrest]
        rw [filterName_upsertActive_other hs0]

theorem upsertActive_keys_mem {files : List ActiveFile} {f : ActiveFile}
    (h : (f.name, f.version) ∈ files.map (fun g => (g.name, g.version))) :
    (upsertActive files f).map (fun g => (g.name, g.version)) =
      files.map (fun g => (g.name, g.version)) := by
  induction files with
  | nil => cases h
  | cons e rest ih =>
      rw [upsertActive]
      by_cases hk : e.name = f.name ∧ e.version = f.version
      · rw [if_pos hk]
        simp [hk.1, hk.2]
      · rw [if_neg hk]
        simp only [List.map_cons]
        rw [List.map_cons] at h
        rcases List.mem_cons.mp h with he | hrest
        · exfalso
          rw [Prod.mk.injEq] at he
          exact hk ⟨he.1.symm, he.2.symm⟩
        · rw [ih hrest]

theorem upsertActive_keys_new {files : List ActiveFile} {f : ActiveFile}
    (h : (f.name, f.version) ∉ files.map (fun g => (g.name, g.version))) :
    (upsertActive files f).map (fun g => (g.name, g.version)) =
      files.map (fun g => (g.name, g.version)) ++ [(f.name, f.version)] := by
  induction files with
  | nil => simp [upsertActive]
  | cons e rest ih =>
      rw [upsertActive]
      by_cases hk : e.name = f.name ∧ e.version = f.version
      · exfalso
        apply h
        simp [← hk.1, ← hk.2]
      · rw [if_neg hk]
        simp only [List.map_cons, List.cons_append]
        rw [ih (fun hc => h (by simp [hc]))]

theorem upsertActive_keys_nodup {files : List ActiveFile} {f : ActiveFile}
    (h : (files.map (fun g => (g.name, g.version))).Nodup) :
    ((upsertActive files f).map (fun g => (g.name, g.version))).Nodup := by
  by_cases hmem : (f.name, f.version) ∈ files.map (fun g => (g.name, g.version))
  · rw [upsertActive_keys_mem hmem]
    exact h
  · rw [upsertActive_keys_new hmem]
    simp [List.nodup_append, h, hmem]

theorem promoteSlices_keys_nodup :
    ∀ (slices : List (String × Slice)) (files : List ActiveFile),
      ((files.map (fun g => (g.name, g.version))).Nodup) →
      ((promoteSlices files slices).map (fun g => (g.name, g.version))).Nodup := by
  intro slices
  induction slices with
  | nil =>
      intro files h
      rw [promoteSlices]
      exact h
  | cons e rest ih =>
      intro files h
      obtain ⟨k, s⟩ := e
      rw [promoteSlices]
      exact ih _ (upsertActive_keys_nodup h)

theorem promoteSlices_keys_existing :
    ∀ (slices : List (String × Slice)) (files : List ActiveFile),
      (∀ x ∈ slices, (Slice.name x.2, Slice.version x.2) ∈
        files.map (fun g => (g.name, g.version))) →
      (promoteSlices files slices).map (fun g => (g.name, g.version)) =
        files.map (fun g => (g.name, g.version)) := by
  intro slices
  induction slices with
  | nil =>
      intro files _
      rw [promoteSlices]
  | cons e rest ih =>
      intro files h
      obtain ⟨k, s⟩ := e
      rw [promoteSlices]
      have h0 : (s.name, s.version) ∈ files.map (fun g => (g.name, g.version)) :=
        h (k, s) (by simp)
      have hkeys := @upsertActive_keys_mem files ⟨s.name, s.version, s.attributes⟩ h0
      rw [ih _ ?_, hkeys]
      intro x hx
      rw [hkeys]
      exact h x (by simp [hx])

theorem filterName_versions_nodup {files : List ActiveFile} {n : String}
    (h : (files.map (fun g => (g.name, g.version))).Nodup) :
    ((filterName files n).map ActiveFile.version).Nodup := by
  induction files with
  | nil => simp [filterName]
  | cons e rest ih =>
      have h' : (∀ x ∈ rest, x.name = e.name → ¬x.version = e.version) ∧
          (rest.map (fun g => (g.name, g.version))).Nodup := by
        simpa using h
      by_cases he : e.name = n
      · rw [filterName_cons_hit he]
        rw [List.map_cons, List.nodup_cons]
        constructor
        · intro hmem
          rcases List.mem_map.mp hmem with ⟨g, hg, hgv⟩
          rcases mem_filterName.mp hg with ⟨hgfiles, hgname⟩
          exact h'.1 g hgfiles (by rw [hgname, he]) hgv
        · exact ih h'.2
      · rw [filterName_cons_miss he]
        exact ih h'.2

theorem loadSourceSlices_covers (cfg : StoreConfig) (st : DiskState)
    (hwf : (st.sourceFiles.map SourceFile.name).Nodup) :
    ∀ f ∈ st.sourceFiles,
      dictGet (loadSourceSlices cfg st) f.name = some (sourceSliceFor cfg st f) := by
  intro f hf
  unfold loadSourceSlices
  rw [dictGet_append]
  rw [dictGet_map_key_nodup SourceFile.name (fun f => sourceSliceFor cfg st f) hwf hf]

theorem syncCheck_spec (slices : List (String × Slice)) (nowContent : String → Value)
    (g : SourceFile → Slice) :
    ∀ files : List SourceFile,
      (∀ f ∈ files, dictGet slices f.name = some (g f)) →
      syncCheck slices files nowContent = .ok
        ((files.filter (fun f =>
            decide (¬nowContent f.name = (g f).attributes))).map SourceFile.name,
         files.map (fun f =>
           if nowContent f.name = (g f).attributes
           then { name := f.name, content := nowContent f.name }
           else { name := f.name, content := (g f).attributes })) := by
  intro files
  induction files with
  | nil =>
      intro _
      rw [syncCheck]
      simp
  | cons f rest ih =>
      intro hg
      have hrest := ih (fun f' hf' => hg f' (by simp [hf']))
      rw [syncCheck, hg f (by simp), hrest]
      simp only [pure, Except.pure, Bind.bind, Except.bind]
      by_cases hc : nowContent f.name = (g f).attributes
      · simp [hc, List.filter_cons]
      · simp [hc, List.filter_cons]

theorem syncStore_spec (cfg : StoreConfig) (st : DiskState) (nowContent : String → Value)
    (hwf : (st.sourceFiles.map SourceFile.name).Nodup) :
    syncStore cfg CompileMode.sync st nowContent = .ok
      (if (st.sourceFiles.filter (fun f =>
          decide (¬nowContent f.name = (sourceSliceFor cfg st f).attributes))).map
            SourceFile.name = [] then
        ⟨[], ⟨st.sourceFiles.map (fun f =>
            if nowContent f.name = (sourceSliceFor cfg st f).attributes
            then ⟨f.name, nowContent f.name⟩
            else ⟨f.name, (sourceSliceFor cfg st f).attributes⟩),
          promoteSlices st.activeFiles (loadSourceSlices cfg st)⟩⟩
      else
        ⟨(st.sourceFiles.filter (fun f =>
            decide (¬nowContent f.name = (sourceSliceFor cfg st f).attributes))).map
              SourceFile.name,
          ⟨st.sourceFiles.map (fun f =>
            if nowContent f.name = (sourceSliceFor cfg st f).attributes
            then ⟨f.name, nowContent f.name⟩
            else ⟨f.name, (sourceSliceFor cfg st f).attributes⟩),
          st.activeFiles⟩⟩) := by
  unfold syncStore
  rw [if_neg (by simp)]
  simp only [syncCheck_spec (loadSourceSlices cfg st) nowContent
    (fun f => sourceSliceFor cfg st f) st.sourceFiles (loadSourceSlices_covers cfg st hwf),
    Bind.bind, Except.bind]
  by_cases hc : (st.sourceFiles.filter (fun f =>
      decide (¬nowContent f.name = (sourceSliceFor cfg st f).attributes))).map
        SourceFile.name = []
  · rw [if_pos hc]
    simp only [hc, if_pos rfl]
    rfl
  · rw [if_neg hc]
    simp only [hc]
    rfl

theorem upsertActive_ne_nil (files : List ActiveFile) (f : ActiveFile) :
    upsertActive files f ≠ [] := by
  cases files with
  | nil => simp [upsertActive]
  | cons e rest =>
      rw [upsertActive]
      by_cases hk : e.name = f.name ∧ e.version = f.version
      · rw [if_pos hk]; simp
      · rw [if_neg hk]; simp

theorem mem_promoteSlices {g : ActiveFile} :
    ∀ (slices : List (String × Slice)) (files : List ActiveFile),
      g ∈ promoteSlices files slices →
      g ∈ files ∨ ∃ x ∈ slices,
        g = ActiveFile.mk (Slice.name x.2) (Slice.version x.2) (Slice.attributes x.2) := by
  intro slices
  induction slices with
  | nil =>
      intro files h
      rw [promoteSlices] at h
      exact Or.inl h
  | cons e rest ih =>
      intro files h
      obtain ⟨k, s⟩ := e
      rw [promoteSlices] at h
      rcases ih _ h with h1 | ⟨x, hx, hgx⟩
      · rcases mem_upsertActive h1 with h2 | h2
        · exact Or.inl h2
        · exact Or.inr ⟨(k, s), by simp, h2⟩
      · exact Or.inr ⟨x, by simp [hx], hgx⟩

theorem getLatestSlice_deleted_attributes {cfg : StoreConfig} {st : DiskState} {n : String}
    (hd : (getLatestSlice cfg st n).deleted = true) :
    (getLatestSlice cfg st n).attributes = Value.obj [] := by
  unfold getLatestSlice at hd ⊢
  cases hfs : activeFilesFor st n with
  | nil => rfl
  | cons f fs =>
      rw [hfs] at hd
      simp only [emitSlice] at hd ⊢
      have hc : (latestActiveFile f fs).content = Value.obj [] := by
        simpa using hd
      simp [hc]

theorem deletionRecord_attributes (cfg : StoreConfig) (st : DiskState) (n : String) :
    (deletionRecord cfg st n).attributes = Value.obj [] := by
  by_cases hd : (getLatestSlice cfg st n).deleted = true
  · rw [deletionRecord_of_deleted hd]
    exact getLatestSlice_deleted_attributes hd
  · rw [deletionRecord_tombstone hd]

theorem loadSourceSlices_mem_source (cfg : StoreConfig) (st : DiskState) {f : SourceFile}
    (hf : f ∈ st.sourceFiles) :
    (f.name, sourceSliceFor cfg st f) ∈ loadSourceSlices cfg st := by
  unfold loadSourceSlices
  exact List.mem_append.mpr (Or.inl (List.mem_map.mpr ⟨f, hf, rfl⟩))

theorem loadSourceSlices_mem_deleted (cfg : StoreConfig) (st : DiskState) {n : String}
    (hn : n ∈ st.activeFiles.map ActiveFile.name)
    (hns : n ∉ st.sourceFiles.map SourceFile.name) :
    (n, deletionRecord cfg st n) ∈ loadSourceSlices cfg st := by
  unfold loadSourceSlices
  refine List.mem_append.mpr (Or.inr (List.mem_map.mpr ⟨n, ?_, rfl⟩))
  refine List.mem_filter.mpr ⟨mem_dedupKeepFirst.mpr hn, ?_⟩
  simpa using hns

theorem loadSourceSlices_mem_cases (cfg : StoreConfig) (st : DiskState)
    {x : String × Slice} (hx : x ∈ loadSourceSlices cfg st) :
    (∃ f ∈ st.sourceFiles, x = (f.name, sourceSliceFor cfg st f)) ∨
    (∃ n, n ∈ st.activeFiles.map ActiveFile.name ∧
      n ∉ st.sourceFiles.map SourceFile.name ∧ x = (n, deletionRecord cfg st n)) := by
  unfold loadSourceSlices at hx
  rcases List.mem_append.mp hx with h | h
  · rcases List.mem_map.mp h with ⟨f, hf, rfl⟩
    exact Or.inl ⟨f, hf, rfl⟩
  · rcases List.mem_map.mp h with ⟨n, hn, rfl⟩
    rcases List.mem_filter.mp hn with ⟨hn1, hn2⟩
    exact Or.inr ⟨n, mem_dedupKeepFirst.mp hn1, by simpa using hn2, rfl⟩

theorem getLatestSlice_promote (cfg : StoreConfig) (st st1 : DiskState) (n : String)
    (s : Slice) (hwf : st.wf)
    (hact : st1.activeFiles = promoteSlices st.activeFiles (loadSourceSlices cfg st))
    (hmem : (n, s) ∈ loadSourceSlices cfg st) :
    (ActiveFile.mk n s.version s.attributes) ∈ st1.activeFiles ∧
    activeFilesFor st1 n ≠ [] ∧
    getLatestSlice cfg st1 n = emitSlice cfg n s.version s.attributes := by
  have hname : Slice.name s = n := loadSourceSlices_entry_name cfg st (n, s) hmem
  have hkeysnd := loadSourceSlices_keys_nodup cfg st hwf.1
  have hfilter : filterName st1.activeFiles n =
      upsertActive (filterName st.activeFiles n) ⟨s.name, s.version, s.attributes⟩ := by
    rw [hact]
    exact promoteSlices_filterName_hit (loadSourceSlices cfg st) st.activeFiles
      hkeysnd (loadSourceSlices_entry_name cfg st) hmem
  have hb : (ActiveFile.mk n s.version s.attributes) ∈ filterName st1.activeFiles n := by
    rw [hfilter, hname]
    exact mem_upsertActive_self _ _
  have hbmem : (ActiveFile.mk n s.version s.attributes) ∈ st1.activeFiles :=
    (mem_filterName.mp hb).1
  have hge : maxVersion (activeFilesFor st n) ≤ s.version :=
    loadSourceSlices_version_ge cfg st (n, s) hmem
  have hb2 : (ActiveFile.mk n s.version s.attributes) ∈ activeFilesFor st1 n := hb
  have hdom : ∀ g ∈ activeFilesFor st1 n, g.version ≤ s.version := by
    intro g hg
    have hg' : g ∈ upsertActive (filterName st.activeFiles n)
        ⟨s.name, s.version, s.attributes⟩ := by
      rw [← hfilter]
      exact hg
    rcases mem_upsertActive hg' with h' | rfl
    · exact le_trans (version_le_maxVersion h') hge
    · exact Nat.le_refl _
  have hnd : ((activeFilesFor st1 n).map ActiveFile.version).Nodup := by
    apply filterName_versions_nodup
    rw [hact]
    exact promoteSlices_keys_nodup _ _ hwf.2
  have hne : activeFilesFor st1 n ≠ [] := by
    show filterName st1.activeFiles n ≠ []
    rw [hfilter]
    exact upsertActive_ne_nil _ _
  exact ⟨hbmem, hne, getLatestSlice_eq_of hb2 hdom hnd⟩

theorem syncStore_success (cfg : StoreConfig) (st : DiskState) (now1 : String → Value)
    (out : SyncOutcome) (hwf : (st.sourceFiles.map SourceFile.name).Nodup)
    (h1 : syncStore cfg CompileMode.sync st now1 = .ok out)
    (hok : out.blocked = []) :
    (∀ f ∈ st.sourceFiles, now1 f.name = (sourceSliceFor cfg st f).attributes) ∧
    out.disk.sourceFiles =
      st.sourceFiles.map (fun f => ⟨f.name, (sourceSliceFor cfg st f).attributes⟩) ∧
    out.disk.activeFiles = promoteSlices st.activeFiles (loadSourceSlices cfg st) := by
  rw [syncStore_spec cfg st now1 hwf] at h1
  by_cases hc : (st.sourceFiles.filter (fun f =>
      decide (¬now1 f.name = (sourceSliceFor cfg st f).attributes))).map SourceFile.name = []
  · rw [if_pos hc] at h1
    injection h1 with h1'
    subst h1'
    have hmatch : ∀ f ∈ st.sourceFiles,
        now1 f.name = (sourceSliceFor cfg st f).attributes := by
      intro f hf
      by_contra hne
      have hmem : f.name ∈ (st.sourceFiles.filter (fun f =>
          decide (¬now1 f.name = (sourceSliceFor cfg st f).attributes))).map SourceFile.name :=
        List.mem_map.mpr ⟨f, List.mem_filter.mpr ⟨hf, by simpa using hne⟩, rfl⟩
      rw [hc] at hmem
      cases hmem
    refine ⟨hmatch, ?_, rfl⟩
    show st.sourceFiles.map (fun f =>
        if now1 f.name = (sourceSliceFor cfg st f).attributes
        then (⟨f.name, now1 f.name⟩ : SourceFile)
        else ⟨f.name, (sourceSliceFor cfg st f).attributes⟩) =
      st.sourceFiles.map (fun f => ⟨f.name, (sourceSliceFor cfg st f).attributes⟩)
    apply List.map_congr_left
    intro f hf
    rw [hmatch f hf, if_pos rfl]
  · rw [if_neg hc] at h1
    injection h1 with h1'
    subst h1'
    exact absurd hok hc

theorem promoteSlices_filterName_maxVersion (n : String) :
    ∀ (slices : List (String × Slice)) (files : List ActiveFile),
      maxVersion (filterName files n) ≤
        maxVersion (filterName (promoteSlices files slices) n) := by
  intro slices
  induction slices with
  | nil =>
      intro files
      rw [promoteSlices]
  | cons e rest ih =>
      intro files
      obtain ⟨k, s⟩ := e
      rw [promoteSlices]
      refine le_trans ?_ (ih (upsertActive files ⟨s.name, s.version, s.attributes⟩))
      by_cases hn : (ActiveFile.mk s.name s.version s.attributes).name = n
      · rw [filterName_upsertActive_same hn, maxVersion_upsertActive]
        exact Nat.le_max_left _ _
      · rw [filterName_upsertActive_other hn]

/-- C6 counterexample: the claim asserts the mid-run on-disk edit is
preserved ("writes the newer on-disk content to the draft file so that the
mid-run edit is not lost").  At this input the draft was loaded with
content `a = 0`, edited on disk to `a = 1` mid-run, and the blocked sync
leaves the draft file holding the load-time content `a = 0`: the code
overwrites the file with the in-memory slice attributes, so the mid-run
edit is lost, not preserved. -/
theorem C6_sync_blocked_counterexample :
    syncStore ⟨"w", .mk "E" [] [] [] [⟨"a"⟩] [], id⟩ CompileMode.sync
        ⟨[⟨"s1", Value.obj [("a", Value.int 0)]⟩], []⟩
        (fun _ => Value.obj [("a", Value.int 1)]) =
      .ok ⟨["s1"], ⟨[⟨"s1", Value.obj [("a", Value.int 0)]⟩], []⟩⟩ ∧
    Value.obj [("a", Value.int 0)] ≠ Value.obj [("a", Value.int 1)] := by
  constructor <;> decide

/-- C6 (amended): a sync raises the sync-blocked failure exactly when some
draft file's on-disk content at sync time differs from the attributes of
the slice computed for it at load time; before raising it writes those
load-time slice attributes to each mismatched draft file (overwriting the
mid-run on-disk edit, which is lost), and it promotes no source slice to an
active file. -/
theorem C6_sync_blocked_amended (cfg : StoreConfig) (st : DiskState)
    (nowContent : String → Value)
    (hwf : (st.sourceFiles.map SourceFile.name).Nodup) :
    ∃ out, syncStore cfg CompileMode.sync st nowContent = .ok out ∧
      (out.blocked ≠ [] ↔ ∃ f ∈ st.sourceFiles,
        ¬nowContent f.name = (sourceSliceFor cfg st f).attributes) ∧
      out.disk.sourceFiles = st.sourceFiles.map (fun f =>
        if nowContent f.name = (sourceSliceFor cfg st f).attributes
        then { name := f.name, content := nowContent f.name }
        else { name := f.name, content := (sourceSliceFor cfg st f).attributes }) ∧
      (out.blocked ≠ [] → out.disk.activeFiles = st.activeFiles) := by
  refine ⟨_, syncStore_spec cfg st nowContent hwf, ?_, ?_, ?_⟩
  · by_cases hc : (st.sourceFiles.filter (fun f =>
        decide (¬nowContent f.name = (sourceSliceFor cfg st f).attributes))).map
          SourceFile.name = []
    · rw [if_pos hc]
      simp only [ne_eq, not_true_eq_false, false_iff]
      rintro ⟨f, hf, hne⟩
      have hfil : (st.sourceFiles.filter (fun f =>
          decide (¬nowContent f.name = (sourceSliceFor cfg st f).attributes))) = [] :=
        List.map_eq_nil_iff.mp hc
      have hmem : f ∈ st.sourceFiles.filter (fun f =>
          decide (¬nowContent f.name = (sourceSliceFor cfg st f).attributes)) :=
        List.mem_filter.mpr ⟨hf, by simpa using hne⟩
      rw [hfil] at hmem
      cases hmem
    · rw [if_neg hc]
      simp only [ne_eq]
      constructor
      · intro _
        have : (st.sourceFiles.filter (fun f =>
            decide (¬nowContent f.name = (sourceSliceFor cfg st f).attributes))) ≠ [] := by
          intro h0
          exact hc (by rw [h0]; rfl)
        rcases List.exists_mem_of_ne_nil _ this with ⟨f, hf⟩
        rcases List.mem_filter.mp hf with ⟨hfmem, hdec⟩
        exact ⟨f, hfmem, by simpa using hdec⟩
      · intro _
        exact hc
  · by_cases hc : (st.sourceFiles.filter (fun f =>
        decide (¬nowContent f.name = (sourceSliceFor cfg st f).attributes))).map
          SourceFile.name = []
    · rw [if_pos hc]
    · rw [if_neg hc]
  · by_cases hc : (st.sourceFiles.filter (fun f =>
        decide (¬nowContent f.name = (sourceSliceFor cfg st f).attributes))).map
          SourceFile.name = []
    · rw [if_pos hc]
      intro hb
      exact absurd rfl hb
    · rw [if_neg hc]
      intro _
      rfl

/-- C6 witness: a store with one draft whose on-disk content drifted
mid-run. -/
theorem C6_sync_blocked_amended_witness :
    ∃ out, syncStore ⟨"w", .mk "E" [] [] [] [⟨"a"⟩] [], id⟩ CompileMode.sync
        ⟨[⟨"s1", Value.obj [("a", Value.int 0)]⟩], []⟩
        (fun _ => Value.obj [("a", Value.int 1)]) = .ok out ∧
      (out.blocked ≠ [] ↔ ∃ f ∈ (DiskState.mk [⟨"s1", Value.obj [("a", Value.int 0)]⟩]
          []).sourceFiles,
        ¬(fun _ => Value.obj [("a", Value.int 1)]) f.name =
          (sourceSliceFor ⟨"w", .mk "E" [] [] [] [⟨"a"⟩] [], id⟩
            ⟨[⟨"s1", Value.obj [("a", Value.int 0)]⟩], []⟩ f).attributes) ∧
      out.disk.sourceFiles = (DiskState.mk [⟨"s1", Value.obj [("a", Value.int 0)]⟩]
          []).sourceFiles.map (fun f =>
        if (fun _ => Value.obj [("a", Value.int 1)]) f.name =
            (sourceSliceFor ⟨"w", .mk "E" [] [] [] [⟨"a"⟩] [], id⟩
              ⟨[⟨"s1", Value.obj [("a", Value.int 0)]⟩], []⟩ f).attributes
        then { name := f.name, content := (fun _ => Value.obj [("a", Value.int 1)]) f.name }
        else { name := f.name, content :=
          (sourceSliceFor ⟨"w", .mk "E" [] [] [] [⟨"a"⟩] [], id⟩
            ⟨[⟨"s1", Value.obj [("a", Value.int 0)]⟩], []⟩ f).attributes }) ∧
      (out.blocked ≠ [] → out.disk.activeFiles =
        (DiskState.mk [⟨"s1", Value.obj [("a", Value.int 0)]⟩] []).activeFiles) :=
  C6_sync_blocked_amended ⟨"w", .mk "E" [] [] [] [⟨"a"⟩] [], id⟩
    ⟨[⟨"s1", Value.obj [("a", Value.int 0)]⟩], []⟩
    (fun _ => Value.obj [("a", Value.int 1)]) (by decide)

/-- C8 counterexample: the claim asserts no exposed operation mutates an
existing Slice or its attribute tree.  The `update_slice_attribute` plugin
does exactly that: at this input the cached resolved slice for `s1` keeps
its version (1) but its attribute tree changes in place from `a = 0` to
`a = 1`; no new Slice version is created. -/
theorem C8_immutability_counterexample :
    updateSliceAttribute
        ⟨[("s1", ⟨"s1", "w", 1, Value.obj [("a", Value.int 0)], false⟩)],
         [("s1", ⟨"s1", "w", 1, Value.obj [("a", Value.int 0)], false⟩)]⟩
        "s1" (DictPath.inDict DictPath.nullPath "a") (Value.int 1) =
      .ok (⟨[("s1", ⟨"s1", "w", 1, Value.obj [("a", Value.int 0)], false⟩)],
            [("s1", ⟨"s1", "w", 1, Value.obj [("a", Value.int 1)], false⟩)]⟩,
           Value.int 1) ∧
    (Slice.mk "s1" "w" 1 (Value.obj [("a", Value.int 1)]) false) ≠
      Slice.mk "s1" "w" 1 (Value.obj [("a", Value.int 0)]) false := by
  constructor <;> decide

/-- C8 (amended): a Slice's scalar fields are frozen, but its attribute
tree is not: `update_slice_attribute` (and `set_slice_attribute`, which
additionally guards on the update compile mode and also updates the source
cache) mutates the attribute tree of the cached resolved Slice in place, at
an unchanged name, store name, version and deleted flag, leaving every
other cached slice untouched; no new Slice value is created for the
update.  New versions are only produced by `load_source_slices`. -/
theorem C8_cached_slice_mutation_amended
    (cache : StoreCache) (name : String) (p : DictPath) (w : Value)
    (cache' : StoreCache) (v : Value) (s : Slice)
    (hs : dictGet cache.slices name = some s)
    (h : updateSliceAttribute cache name p w = .ok (cache', v)) :
    v = w ∧ cache'.sourceSlices = cache.sourceSlices ∧
    ∃ attrs', pathSetElement p s.attributes w = .ok attrs' ∧
      cache'.slices = dictSet cache.slices name { s with attributes := attrs' } ∧
      dictGet cache'.slices name = some { s with attributes := attrs' } ∧
      (∀ n', n' ≠ name → dictGet cache'.slices n' = dictGet cache.slices n') := by
  unfold updateSliceAttribute at h
  rw [hs] at h
  have h' : (pathSetElement p s.attributes w >>= fun attrs =>
      (pure ({ cache with slices := dictSet cache.slices name { s with attributes := attrs } },
        w) : Except StoreError (StoreCache × Value))) = .ok (cache', v) := h
  rcases except_bind_ok.mp h' with ⟨attrs', hattrs, hfin⟩
  have hpair : cache' = { cache with
      slices := dictSet cache.slices name { s with attributes := attrs' } } ∧ v = w := by
    cases hfin
    exact ⟨rfl, rfl⟩
  rcases hpair with ⟨rfl, rfl⟩
  refine ⟨rfl, rfl, attrs', hattrs, rfl, dictGet_dictSet_self _ _ _, ?_⟩
  intro n' hn'
  exact dictGet_dictSet_other _ _ _ _ (fun he => hn' he.symm)

/-- C8 witness: concrete mutation of the cached slice for `s1`. -/
theorem C8_cached_slice_mutation_amended_witness :
    Value.int 1 = Value.int 1 ∧
    (StoreCache.mk [("s1", ⟨"s1", "w", 1, Value.obj [("a", Value.int 0)], false⟩)]
        [("s1", ⟨"s1", "w", 1, Value.obj [("a", Value.int 1)], false⟩)]).sourceSlices =
      (StoreCache.mk [("s1", ⟨"s1", "w", 1, Value.obj [("a", Value.int 0)], false⟩)]
        [("s1", ⟨"s1", "w", 1, Value.obj [("a", Value.int 0)], false⟩)]).sourceSlices ∧
    ∃ attrs', pathSetElement (DictPath.inDict DictPath.nullPath "a")
        (Value.obj [("a", Value.int 0)]) (Value.int 1) = .ok attrs' ∧
      (StoreCache.mk [("s1", ⟨"s1", "w", 1, Value.obj [("a", Value.int 0)], false⟩)]
        [("s1", ⟨"s1", "w", 1, Value.obj [("a", Value.int 1)], false⟩)]).slices =
        dictSet (StoreCache.mk [("s1", ⟨"s1", "w", 1, Value.obj [("a", Value.int 0)], false⟩)]
          [("s1", ⟨"s1", "w", 1, Value.obj [("a", Value.int 0)], false⟩)]).slices "s1"
          { Slice.mk "s1" "w" 1 (Value.obj [("a", Value.int 0)]) false with
            attributes := attrs' } ∧
      dictGet (StoreCache.mk [("s1", ⟨"s1", "w", 1, Value.obj [("a", Value.int 0)], false⟩)]
          [("s1", ⟨"s1", "w", 1, Value.obj [("a", Value.int 1)], false⟩)]).slices "s1" =
        some { Slice.mk "s1" "w" 1 (Value.obj [("a", Value.int 0)]) false with
          attributes := attrs' } ∧
      (∀ n', n' ≠ "s1" →
        dictGet (StoreCache.mk
            [("s1", ⟨"s1", "w", 1, Value.obj [("a", Value.int 0)], false⟩)]
            [("s1", ⟨"s1", "w", 1, Value.obj [("a", Value.int 1)], false⟩)]).slices n' =
          dictGet (StoreCache.mk
            [("s1", ⟨"s1", "w", 1, Value.obj [("a", Value.int 0)], false⟩)]
            [("s1", ⟨"s1", "w", 1, Value.obj [("a", Value.int 0)], false⟩)]).slices n') :=
  C8_cached_slice_mutation_amended
    ⟨[("s1", ⟨"s1", "w", 1, Value.obj [("a", Value.int 0)], false⟩)],
     [("s1", ⟨"s1", "w", 1, Value.obj [("a", Value.int 0)], false⟩)]⟩
    "s1" (DictPath.inDict DictPath.nullPath "a") (Value.int 1)
    ⟨[("s1", ⟨"s1", "w", 1, Value.obj [("a", Value.int 0)], false⟩)],
     [("s1", ⟨"s1", "w", 1, Value.obj [("a", Value.int 1)], false⟩)]⟩
    (Value.int 1) ⟨"s1", "w", 1, Value.obj [("a", Value.int 0)], false⟩
    (by decide) (by decide)

/-- C5: re-sync is idempotent.  After a successful sync (no blocked draft),
running a second sync over the resulting disk state with unchanged drafts
(the contents re-read at the second sync are the drafts the first sync
wrote) succeeds without blocking and creates no new active version file:
the list of (name, version) active files is unchanged.  The external
validator is assumed idempotent, as pydantic round-tripping is. -/
theorem C5_resync_idempotent (cfg : StoreConfig) (st : DiskState)
    (now1 now2 : String → Value) (out1 : SyncOutcome)
    (hwf : st.wf)
    (hidem : ∀ w, cfg.validate (cfg.validate w) = cfg.validate w)
    (h1 : syncStore cfg CompileMode.sync st now1 = .ok out1)
    (hok : out1.blocked = [])
    (hsame : ∀ f ∈ out1.disk.sourceFiles, now2 f.name = f.content) :
    ∃ out2, syncStore cfg CompileMode.sync out1.disk now2 = .ok out2 ∧
      out2.blocked = [] ∧
      out2.disk.activeFiles.map (fun g => (g.name, g.version)) =
        out1.disk.activeFiles.map (fun g => (g.name, g.version)) := by
  obtain ⟨hmatch, hsrc, hactive⟩ := syncStore_success cfg st now1 out1 hwf.1 h1 hok
  have hsrcnames : out1.disk.sourceFiles.map SourceFile.name =
      st.sourceFiles.map SourceFile.name := by
    rw [hsrc, List.map_map]
    rfl
  have hwf1 : (out1.disk.sourceFiles.map SourceFile.name).Nodup := by
    rw [hsrcnames]
    exact hwf.1
  have hdraft : ∀ f1 ∈ out1.disk.sourceFiles,
      sourceSliceFor cfg out1.disk f1 = getLatestSlice cfg out1.disk f1.name ∧
      (sourceSliceFor cfg out1.disk f1).attributes = f1.content ∧
      ((sourceSliceFor cfg out1.disk f1).name, (sourceSliceFor cfg out1.disk f1).version) ∈
        out1.disk.activeFiles.map (fun g => (g.name, g.version)) := by
    intro f1 hf1
    rw [hsrc] at hf1
    rcases List.mem_map.mp hf1 with ⟨f, hf, rfl⟩
    have hm : (f.name, sourceSliceFor cfg st f) ∈ loadSourceSlices cfg st :=
      loadSourceSlices_mem_source cfg st hf
    obtain ⟨hbmem, hne, hlatest⟩ :=
      getLatestSlice_promote cfg st out1.disk f.name (sourceSliceFor cfg st f) hwf hactive hm
    have hcan := loadSourceSlices_canonical cfg st (f.name, sourceSliceFor cfg st f) hm
    have hattrs : (getLatestSlice cfg out1.disk f.name).attributes =
        (sourceSliceFor cfg st f).attributes := by
      rw [hlatest]
      exact emitSlice_attributes_of_canonical cfg f.name _ hidem hcan
    have hreuse : sourceSliceFor cfg out1.disk
        ⟨f.name, (sourceSliceFor cfg st f).attributes⟩ =
        getLatestSlice cfg out1.disk f.name :=
      sourceSliceFor_reuse hne (by
        show (sourceSliceFor cfg st f).attributes = _
        rw [hattrs])
    refine ⟨hreuse, ?_, ?_⟩
    · show (sourceSliceFor cfg out1.disk ⟨f.name, (sourceSliceFor cfg st f).attributes⟩).attributes
        = (sourceSliceFor cfg st f).attributes
      rw [hreuse, hattrs]
    · rw [hreuse, hlatest]
      show (f.name, (sourceSliceFor cfg st f).version) ∈ _
      exact List.mem_map.mpr ⟨⟨f.name, (sourceSliceFor cfg st f).version,
        (sourceSliceFor cfg st f).attributes⟩, hbmem, rfl⟩
  have hfilter2 : (out1.disk.sourceFiles.filter (fun f =>
      decide (¬now2 f.name = (sourceSliceFor cfg out1.disk f).attributes))).map
        SourceFile.name = [] := by
    rw [List.map_eq_nil_iff, List.filter_eq_nil_iff]
    intro f1 hf1
    have h := (hdraft f1 hf1).2.1
    simp [hsame f1 hf1, h]
  have h2 := syncStore_spec cfg out1.disk now2 hwf1
  rw [if_pos hfilter2] at h2
  refine ⟨_, h2, rfl, ?_⟩
  show (promoteSlices out1.disk.activeFiles (loadSourceSlices cfg out1.disk)).map
      (fun g => (g.name, g.version)) =
    out1.disk.activeFiles.map (fun g => (g.name, g.version))
  apply promoteSlices_keys_existing
  intro x hx
  rcases loadSourceSlices_mem_cases cfg out1.disk hx with ⟨f1, hf1, rfl⟩ | ⟨n, hn1, hn2, rfl⟩
  · exact (hdraft f1 hf1).2.2
  · have hnS : n ∉ st.sourceFiles.map SourceFile.name := by
      rw [← hsrcnames]
      exact hn2
    have hnA : n ∈ st.activeFiles.map ActiveFile.name := by
      rcases List.mem_map.mp hn1 with ⟨g, hg, rfl⟩
      rw [hactive] at hg
      rcases mem_promoteSlices _ _ hg with hg0 | ⟨x', hx', rfl⟩
      · exact List.mem_map.mpr ⟨g, hg0, rfl⟩
      · have hname' : Slice.name x'.2 = x'.1 := loadSourceSlices_entry_name cfg st x' hx'
        rcases loadSourceSlices_mem_cases cfg st hx' with ⟨f, hf, rfl⟩ | ⟨m, hm1, hm2, rfl⟩
        · exfalso
          apply hnS
          show (ActiveFile.mk (Slice.name (sourceSliceFor cfg st f))
            (Slice.version (sourceSliceFor cfg st f))
            (Slice.attributes (sourceSliceFor cfg st f))).name ∈ _
          rw [show (ActiveFile.mk (Slice.name (sourceSliceFor cfg st f))
            (Slice.version (sourceSliceFor cfg st f))
            (Slice.attributes (sourceSliceFor cfg st f))).name =
              Slice.name (sourceSliceFor cfg st f) from rfl, hname']
          exact List.mem_map.mpr ⟨f, hf, rfl⟩
        · show (ActiveFile.mk (Slice.name (deletionRecord cfg st m))
            (Slice.version (deletionRecord cfg st m))
            (Slice.attributes (deletionRecord cfg st m))).name ∈ _
          rw [show (ActiveFile.mk (Slice.name (deletionRecord cfg st m))
            (Slice.version (deletionRecord cfg st m))
            (Slice.attributes (deletionRecord cfg st m))).name =
              Slice.name (deletionRecord cfg st m) from rfl, hname']
          exact hm1
    have hm' : (n, deletionRecord cfg st n) ∈ loadSourceSlices cfg st :=
      loadSourceSlices_mem_deleted cfg st hnA hnS
    obtain ⟨hbmem', _, hlatest'⟩ :=
      getLatestSlice_promote cfg st out1.disk n (deletionRecord cfg st n) hwf hactive hm'
    have hattr0 : (deletionRecord cfg st n).attributes = Value.obj [] :=
      deletionRecord_attributes cfg st n
    rw [hattr0] at hlatest' hbmem'
    have hdel : (getLatestSlice cfg out1.disk n).deleted = true := by
      rw [hlatest']
      rfl
    have hrec : deletionRecord cfg out1.disk n = getLatestSlice cfg out1.disk n :=
      deletionRecord_of_deleted hdel
    show (Slice.name (deletionRecord cfg out1.disk n),
      Slice.version (deletionRecord cfg out1.disk n)) ∈ _
    rw [hrec, hlatest']
    show (n, (deletionRecord cfg st n).version) ∈ _
    exact List.mem_map.mpr ⟨⟨n, (deletionRecord cfg st n).version, Value.obj []⟩, hbmem', rfl⟩

/-- C5 witness: a one-draft store freshly synced, then re-synced with the
same draft contents. -/
theorem C5_resync_idempotent_witness :
    ∃ out2, syncStore ⟨"w", .mk "E" [] [] [] [⟨"a"⟩] [], id⟩ CompileMode.sync
        ⟨[⟨"s1", Value.obj [("a", Value.int 0)]⟩],
         [⟨"s1", 1, Value.obj [("a", Value.int 0)]⟩]⟩
        (fun _ => Value.obj [("a", Value.int 0)]) = .ok out2 ∧
      out2.blocked = [] ∧
      out2.disk.activeFiles.map (fun g => (g.name, g.version)) =
        ([⟨"s1", 1, Value.obj [("a", Value.int 0)]⟩] : List ActiveFile).map
          (fun g => (g.name, g.version)) :=
  C5_resync_idempotent ⟨"w", .mk "E" [] [] [] [⟨"a"⟩] [], id⟩
    ⟨[⟨"s1", Value.obj [("a", Value.int 0)]⟩], []⟩
    (fun _ => Value.obj [("a", Value.int 0)]) (fun _ => Value.obj [("a", Value.int 0)])
    ⟨[], ⟨[⟨"s1", Value.obj [("a", Value.int 0)]⟩],
      [⟨"s1", 1, Value.obj [("a", Value.int 0)]⟩]⟩⟩
    ⟨by decide, by decide⟩ (fun w => rfl) (by decide) rfl (by decide)

/-- C3: version assignment of `load_source_slices` and version monotonicity
across a successful sync.  Per draft file: no active history gives version 1
(the emitted slice at the draft content); with history, content deep-equal
to the latest attributes reuses the latest slice unchanged, and differing
content bumps to latest version + 1.  Across a successful (unblocked) sync,
`get_latest_slice(name).version` is non-decreasing for every name, and for
a drafted name with active history it increases by exactly 1 if and only if
the draft content differs from the latest attributes. -/
theorem C3_draft_version_assignment (cfg : StoreConfig) (st : DiskState)
    (now1 : String → Value) (out : SyncOutcome)
    (hwf : st.wf)
    (h1 : syncStore cfg CompileMode.sync st now1 = .ok out)
    (hok : out.blocked = []) :
    (∀ f ∈ st.sourceFiles,
      (activeFilesFor st f.name = [] →
        sourceSliceFor cfg st f = emitSlice cfg f.name 1 f.content) ∧
      (activeFilesFor st f.name ≠ [] →
        (f.content = (getLatestSlice cfg st f.name).attributes →
          sourceSliceFor cfg st f = getLatestSlice cfg st f.name) ∧
        (¬f.content = (getLatestSlice cfg st f.name).attributes →
          (sourceSliceFor cfg st f).version =
            (getLatestSlice cfg st f.name).version + 1))) ∧
    (∀ n, (getLatestSlice cfg st n).version ≤ (getLatestSlice cfg out.disk n).version) ∧
    (∀ f ∈ st.sourceFiles, activeFilesFor st f.name ≠ [] →
      ((getLatestSlice cfg out.disk f.name).version =
          (getLatestSlice cfg st f.name).version + 1 ↔
        ¬f.content = (getLatestSlice cfg st f.name).attributes)) := by
  obtain ⟨_, _, hactive⟩ := syncStore_success cfg st now1 out hwf.1 h1 hok
  refine ⟨?_, ?_, ?_⟩
  · intro f _
    refine ⟨fun hnil => sourceSliceFor_empty hnil, fun hne => ⟨?_, ?_⟩⟩
    · intro hsame
      exact sourceSliceFor_reuse hne hsame
    · intro hdiff
      rw [sourceSliceFor_bump hne hdiff]
      rfl
  · intro n
    rw [getLatestSlice_version, getLatestSlice_version]
    show maxVersion (filterName st.activeFiles n) ≤
      maxVersion (filterName out.disk.activeFiles n)
    rw [hactive]
    exact promoteSlices_filterName_maxVersion n _ _
  · intro f hf hne
    have hm : (f.name, sourceSliceFor cfg st f) ∈ loadSourceSlices cfg st :=
      loadSourceSlices_mem_source cfg st hf
    obtain ⟨_, _, hlatest⟩ :=
      getLatestSlice_promote cfg st out.disk f.name (sourceSliceFor cfg st f) hwf hactive hm
    have hv1 : (getLatestSlice cfg out.disk f.name).version =
        (sourceSliceFor cfg st f).version := by
      rw [hlatest]
      rfl
    constructor
    · intro hplus hsame
      rw [hv1, sourceSliceFor_reuse hne hsame] at hplus
      omega
    · intro hdiff
      rw [hv1, sourceSliceFor_bump hne hdiff]
      rfl

/-- C3 witness: a fresh one-draft store (no active history) synced once. -/
theorem C3_draft_version_assignment_witness :
    (∀ f ∈ ([⟨"s1", Value.obj [("a", Value.int 0)]⟩] : List SourceFile),
      (activeFilesFor ⟨[⟨"s1", Value.obj [("a", Value.int 0)]⟩], []⟩ f.name = [] →
        sourceSliceFor ⟨"w", .mk "E" [] [] [] [⟨"a"⟩] [], id⟩
          ⟨[⟨"s1", Value.obj [("a", Value.int 0)]⟩], []⟩ f =
          emitSlice ⟨"w", .mk "E" [] [] [] [⟨"a"⟩] [], id⟩ f.name 1 f.content) ∧
      (activeFilesFor ⟨[⟨"s1", Value.obj [("a", Value.int 0)]⟩], []⟩ f.name ≠ [] →
        (f.content = (getLatestSlice ⟨"w", .mk "E" [] [] [] [⟨"a"⟩] [], id⟩
            ⟨[⟨"s1", Value.obj [("a", Value.int 0)]⟩], []⟩ f.name).attributes →
          sourceSliceFor ⟨"w", .mk "E" [] [] [] [⟨"a"⟩] [], id⟩
            ⟨[⟨"s1", Value.obj [("a", Value.int 0)]⟩], []⟩ f =
            getLatestSlice ⟨"w", .mk "E" [] [] [] [⟨"a"⟩] [], id⟩
              ⟨[⟨"s1", Value.obj [("a", Value.int 0)]⟩], []⟩ f.name) ∧
        (¬f.content = (getLatestSlice ⟨"w", .mk "E" [] [] [] [⟨"a"⟩] [], id⟩
            ⟨[⟨"s1", Value.obj [("a", Value.int 0)]⟩], []⟩ f.name).attributes →
          (sourceSliceFor ⟨"w", .mk "E" [] [] [] [⟨"a"⟩] [], id⟩
            ⟨[⟨"s1", Value.obj [("a", Value.int 0)]⟩], []⟩ f).version =
            (getLatestSlice ⟨"w", .mk "E" [] [] [] [⟨"a"⟩] [], id⟩
              ⟨[⟨"s1", Value.obj [("a", Value.int 0)]⟩], []⟩ f.name).version + 1))) ∧
    (∀ n, (getLatestSlice ⟨"w", .mk "E" [] [] [] [⟨"a"⟩] [], id⟩
        ⟨[⟨"s1", Value.obj [("a", Value.int 0)]⟩], []⟩ n).version ≤
      (getLatestSlice ⟨"w", .mk "E" [] [] [] [⟨"a"⟩] [], id⟩
        (SyncOutcome.mk [] ⟨[⟨"s1", Value.obj [("a", Value.int 0)]⟩],
          [⟨"s1", 1, Value.obj [("a", Value.int 0)]⟩]⟩).disk n).version) ∧
    (∀ f ∈ ([⟨"s1", Value.obj [("a", Value.int 0)]⟩] : List SourceFile),
      activeFilesFor ⟨[⟨"s1", Value.obj [("a", Value.int 0)]⟩], []⟩ f.name ≠ [] →
      ((getLatestSlice ⟨"w", .mk "E" [] [] [] [⟨"a"⟩] [], id⟩
          (SyncOutcome.mk [] ⟨[⟨"s1", Value.obj [("a", Value.int 0)]⟩],
            [⟨"s1", 1, Value.obj [("a", Value.int 0)]⟩]⟩).disk f.name).version =
          (getLatestSlice ⟨"w", .mk "E" [] [] [] [⟨"a"⟩] [], id⟩
            ⟨[⟨"s1", Value.obj [("a", Value.int 0)]⟩], []⟩ f.name).version + 1 ↔
        ¬f.content = (getLatestSlice ⟨"w", .mk "E" [] [] [] [⟨"a"⟩] [], id⟩
          ⟨[⟨"s1", Value.obj [("a", Value.int 0)]⟩], []⟩ f.name).attributes)) :=
  C3_draft_version_assignment ⟨"w", .mk "E" [] [] [] [⟨"a"⟩] [], id⟩
    ⟨[⟨"s1", Value.obj [("a", Value.int 0)]⟩], []⟩
    (fun _ => Value.obj [("a", Value.int 0)])
    ⟨[], ⟨[⟨"s1", Value.obj [("a", Value.int 0)]⟩],
      [⟨"s1", 1, Value.obj [("a", Value.int 0)]⟩]⟩⟩
    ⟨by decide, by decide⟩ (by decide) rfl

/-- C10: `load_slices` is not total.  For a name whose only active version
is a tombstone (current slice deleted, history empty once the latest slice
is excluded from its own history), `load_slices` indexes `previous[0]` on an
empty list and raises an unhandled IndexError, in every compile mode. -/
theorem C10_load_slices_index_error :
    loadSlices ⟨"store", .mk "E" [] [] [] [⟨"a"⟩] [], id⟩ CompileMode.export
        ⟨[], [⟨"s1", 1, Value.obj []⟩]⟩ = .error StoreError.indexError ∧
    loadSlices ⟨"store", .mk "E" [] [] [] [⟨"a"⟩] [], id⟩ CompileMode.sync
        ⟨[], [⟨"s1", 1, Value.obj []⟩]⟩ = .error StoreError.indexError := by
  constructor <;> decide

end GitOps
